import Mathlib

/-!
Verification of the Ukkonen suffix-tree construction engine
(`suffixtree.cpp` ordered-map variant, `suffixtree_avx.cpp` /
`suffixtree_neon.cpp` flat-array variants).

Texts are byte sequences, modelled as `List Nat`.  Nodes live in an arena
(`Array`), node pointers become arena indices, and the root is index `0`.
The C++ `end` pointer of a node is modelled by `ERef`: leaves share the
global `leafEnd` cell, the root has the fixed root end `-1`, and internal
split nodes carry an immutable integer.  The inner `while (remainder > 0)`
loop of `extend` is modelled with explicit fuel, returning `none` when the
fuel runs out, so every construction function is total and executable.
-/

namespace Ukkonen

/-- The sentinel byte `'$'` (ASCII 36). -/
def dollar : Nat := 36

/-- The constructor's sentinel policy
(`if (text.empty() || text.back() != '$') text += "$";`):
append `'$'` unless the input is nonempty and already ends in `'$'`. -/
def effectiveText (t : List Nat) : List Nat :=
  if t.getLast? = some dollar then t else t ++ [dollar]

/-- `text[i]` for an `int` index, defaulting to `0` out of range
(the C++ read is undefined there; the bounds claims show it is in range). -/
def charAt (t : List Nat) (i : Int) : Nat :=
  if 0 ≤ i then t.getD i.toNat 0 else 0

/-- The three kinds of `end` pointers of `Node::end`:
the root end (fixed `-1`), the shared global leaf end,
and a per-split-node immutable integer. -/
inductive ERef where
  | rootE : ERef
  | leafE : ERef
  | valE : Int → ERef
  deriving DecidableEq, Repr

/-- `struct Node` of the ordered-map variant (`suffixtree.h`):
edge label range `[start, *end]`, suffix link, and the `std::map`
from first byte to child, modelled as an association list with
unique keys.  The `id` field is the arena index itself. -/
structure STNode where
  start : Int
  endRef : ERef
  suffixLink : Nat
  children : List (Nat × Nat)
  deriving DecidableEq, Repr

instance : Inhabited STNode := ⟨⟨0, ERef.valE 0, 0, []⟩⟩

/-- The builder state of `class SuffixTree`: the node arena plus the
active point, `remainder` and the global `leafEnd`. -/
structure STState where
  nodes : Array STNode
  activeNode : Nat
  activeEdge : Int
  activeLength : Int
  remainder : Int
  leafEnd : Int
  deriving DecidableEq, Repr

instance : Inhabited STState :=
  ⟨⟨#[], 0, 0, 0, 0, 0⟩⟩

/-- `std::map::find` on the association list: first (hence unique) key hit. -/
def mapFind (cs : List (Nat × Nat)) (c : Nat) : Option Nat :=
  match cs with
  | [] => none
  | (k, v) :: rest => if k = c then some v else mapFind rest c

/-- `std::map::operator[] =`: replace the value under an existing key,
otherwise add the binding. -/
def mapSet (cs : List (Nat × Nat)) (c : Nat) (v : Nat) : List (Nat × Nat) :=
  match cs with
  | [] => [(c, v)]
  | (k, w) :: rest => if k = c then (c, v) :: rest else (k, w) :: mapSet rest c v

/-- Read a node of the arena. -/
def getNode (st : STState) (i : Nat) : STNode :=
  st.nodes.getD i default

/-- Write a node of the arena. -/
def setNode (st : STState) (i : Nat) (n : STNode) : STState :=
  { st with nodes := st.nodes.setD i n }

/-- Dereference an `end` pointer in the current state. -/
def derefEnd (st : STState) : ERef → Int
  | ERef.rootE => -1
  | ERef.leafE => st.leafEnd
  | ERef.valE v => v

/-- `SuffixTree::edgeLength`: `0` for the root, else `*(n->end) - n->start + 1`. -/
def edgeLength (st : STState) (i : Nat) : Int :=
  if i = 0 then 0
  else derefEnd st (getNode st i).endRef - (getNode st i).start + 1

/-- `SuffixTree::newNode`: push a fresh node (suffix link defaulted to root)
and return its index (its `id`). -/
def pushNode (st : STState) (start : Int) (e : ERef) : STState × Nat :=
  ({ st with
      nodes := st.nodes.push { start := start, endRef := e, suffixLink := 0, children := [] } },
   st.nodes.size)

/-- `getNodeCount()`: the arena size (ids are assigned consecutively from 0). -/
def getNodeCount (st : STState) : Nat :=
  st.nodes.size

/-- The tail of each iteration of the `while (remainder > 0)` loop after a
successful insertion: `remainder--` followed by the active-point update. -/
def afterInsert (st : STState) (pos : Int) : STState :=
  let st1 := { st with remainder := st.remainder - 1 }
  if st1.activeNode = 0 ∧ st1.activeLength > 0 then
    { st1 with
        activeLength := st1.activeLength - 1,
        activeEdge := pos - st1.remainder + 1 }
  else if st1.activeNode ≠ 0 then
    { st1 with activeNode := (getNode st1 st1.activeNode).suffixLink }
  else st1

/-- Rule 2, no-edge case of `extend` (lines 99–107 of `suffixtree.cpp`):
create a new leaf under byte `c`, resolve a pending suffix link, then
decrement `remainder` and update the active point. -/
def insertLeaf (pos : Int) (st1 : STState) (c : Nat) (lastNew : Option Nat) :
    STState × Option Nat :=
  let p := pushNode st1 pos ERef.leafE
  let st2 := p.1
  let st3 := setNode st2 st2.activeNode
    { getNode st2 st2.activeNode with
        children := mapSet (getNode st2 st2.activeNode).children c p.2 }
  let st4 := match lastNew with
    | some ln => setNode st3 ln { getNode st3 ln with suffixLink := st3.activeNode }
    | none => st3
  (afterInsert st4 pos, none)

/-- `walkDown` (skip/count trick): hop into `next`, adjusting the active point. -/
def walkDownStep (st1 : STState) (next : Nat) : STState :=
  { st1 with
      activeEdge := st1.activeEdge + edgeLength st1 next,
      activeLength := st1.activeLength - edgeLength st1 next,
      activeNode := next }

/-- Rule 3 (showstopper, lines 120–131): the suffix is implicitly present;
resolve a pending suffix link when `activeNode` is not the root, and step
one byte further into the edge. -/
def rule3Step (st1 : STState) (lastNew : Option Nat) : STState :=
  let st2 := match lastNew with
    | some ln =>
        if st1.activeNode ≠ 0 then
          setNode st1 ln { getNode st1 ln with suffixLink := st1.activeNode }
        else st1
    | none => st1
  { st2 with activeLength := st2.activeLength + 1 }

/-- Rule 2, split case (lines 133–155): split the edge into `next` at depth
`activeLength`, reattach `next` and a fresh leaf below the split node,
maintain suffix links, then decrement `remainder` and update the active
point. -/
def splitStep (txt : List Nat) (pos : Int) (st1 : STState) (c : Nat) (next : Nat)
    (lastNew : Option Nat) : STState × Option Nat :=
  let nextStart := (getNode st1 next).start
  let p := pushNode st1 nextStart (ERef.valE (nextStart + st1.activeLength - 1))
  let st2 := p.1
  let split := p.2
  let st3 := setNode st2 st2.activeNode
    { getNode st2 st2.activeNode with
        children := mapSet (getNode st2 st2.activeNode).children c split }
  let st4 := setNode st3 next
    { getNode st3 next with start := (getNode st3 next).start + st1.activeLength }
  let st5 := setNode st4 split
    { getNode st4 split with
        children := mapSet (getNode st4 split).children
          (charAt txt (getNode st4 next).start) next }
  let q := pushNode st5 pos ERef.leafE
  let st6 := q.1
  let st7 := setNode st6 split
    { getNode st6 split with
        children := mapSet (getNode st6 split).children (charAt txt pos) q.2 }
  let st8 := match lastNew with
    | some ln => setNode st7 ln { getNode st7 ln with suffixLink := split }
    | none => st7
  (afterInsert st8 pos, some split)

/-- One complete iteration of the body of the `while (remainder > 0)` loop of
`SuffixTree::extend`, given the pending `lastNewNode`.  The result is either
`Sum.inl st'` when the loop breaks (Rule 3 showstopper) or
`Sum.inr (st', lastNew')` when the loop continues. -/
def extendBody (txt : List Nat) (pos : Int) (st : STState) (lastNew : Option Nat) :
    Sum STState (STState × Option Nat) :=
  let st1 := if st.activeLength = 0 then { st with activeEdge := pos } else st
  let c := charAt txt st1.activeEdge
  match mapFind (getNode st1 st1.activeNode).children c with
  | none => Sum.inr (insertLeaf pos st1 c lastNew)
  | some next =>
      if st1.activeLength ≥ edgeLength st1 next then
        Sum.inr (walkDownStep st1 next, lastNew)
      else if charAt txt ((getNode st1 next).start + st1.activeLength) = charAt txt pos then
        Sum.inl (rule3Step st1 lastNew)
      else
        Sum.inr (splitStep txt pos st1 c next lastNew)

/-- The fueled `while (remainder > 0)` loop of `SuffixTree::extend`. -/
def extendLoop (txt : List Nat) (pos : Int) : Nat → STState → Option Nat → Option STState
  | 0, _, _ => none
  | fuel + 1, st, lastNew =>
      if st.remainder ≤ 0 then some st
      else
        match extendBody txt pos st lastNew with
        | Sum.inl st' => some st'
        | Sum.inr (st', lastNew') => extendLoop txt pos fuel st' lastNew'

/-- Fuel amply covering every iteration of one `extend` phase. -/
def phaseFuel (pos : Int) : Nat :=
  (pos.toNat + 2) * (pos.toNat + 2) + 4

/-- `SuffixTree::extend(pos)`: set the global leaf end to `pos`, take one more
suffix into account, and run the remainder loop. -/
def extend (txt : List Nat) (pos : Int) (st : STState) : Option STState :=
  extendLoop txt pos (phaseFuel pos)
    { st with leafEnd := pos, remainder := st.remainder + 1 } none

/-- The state right after the constructor's initialisation, before any phase:
a lone root whose suffix link is itself. -/
def initState : STState :=
  { nodes := #[{ start := -1, endRef := ERef.rootE, suffixLink := 0, children := [] }],
    activeNode := 0, activeEdge := -1, activeLength := 0, remainder := 0, leafEnd := -1 }

/-- Run the phases `extend 0, …, extend (n-1)` on an (already effective) text. -/
def buildOnEff (txt : List Nat) : Option STState :=
  (List.range txt.length).foldlM (fun st i => extend txt (Int.ofNat i) st) initState

/-- `SuffixTree::SuffixTree(text)`: append the sentinel when needed, then build. -/
def build (input : List Nat) : Option STState :=
  buildOnEff (effectiveText input)

/-- The body of `SuffixTree::searchRecursive`, with fuel.  `idx` is the number
of pattern bytes already matched. -/
def searchRec (txt : List Nat) (st : STState) (pattern : List Nat) :
    Nat → Nat → Nat → Option Bool
  | 0, _, _ => none
  | fuel + 1, n, idx =>
      if pattern.length ≤ idx then some true
      else
        let c := pattern.getD idx 0
        match mapFind (getNode st n).children c with
        | none => some false
        | some child =>
            let el := edgeLength st child
            let m := min el.toNat (pattern.length - idx)
            if (List.range m).any
                (fun i => decide (charAt txt ((getNode st child).start + i) ≠ pattern.getD (idx + i) 0)) then
              some false
            else if (m : Int) = el then
              searchRec txt st pattern fuel child (idx + el.toNat)
            else if m + idx = pattern.length then
              some true
            else
              some false

/-- `SuffixTree::search`: empty pattern true, else descend from the root. -/
def search (txt : List Nat) (st : STState) (pattern : List Nat) : Option Bool :=
  if pattern = [] then some true
  else searchRec txt st pattern (pattern.length + st.nodes.size + 2) 0 0

/-- Build a tree from `input` and run `search` on it. -/
def buildAndSearch (input : List Nat) (pattern : List Nat) : Option Bool :=
  match build input with
  | none => none
  | some st => search (effectiveText input) st pattern

/-! ### The flat-array variant (`suffixtree_avx.cpp`, `suffixtree_neon.cpp`)

Nodes keep two parallel arrays `keys` / `children`; `findChild` scans
`keys` for the byte, either purely scalar or with the AVX2 32-lane or
NEON 16-lane block scan.  The builders are identical to the map variant
apart from the child dispatcher, so they are parameterised by the
index-lookup function. -/

/-- Scan of the remaining key bytes, tracking the absolute position. -/
def scanFrom : List Nat → Nat → Nat → Option Nat
  | [], _, _ => none
  | k :: rest, c, i => if k = c then some i else scanFrom rest c (i + 1)

/-- The scalar fallback loop `for (; i < count; ++i) if (ptr[i] == target)`:
first match at position `≥ i`. -/
def scalarFindFrom (keys : List Nat) (c : Nat) (i : Nat) : Option Nat :=
  scanFrom (keys.drop i) c i

/-- The pure left-to-right scalar scan of the whole keys array. -/
def scalarFindIdx (keys : List Nat) (c : Nat) : Option Nat :=
  scalarFindFrom keys c 0

/-- Position of the first matching lane within a block of `cnt` lanes
starting at `i`: the count of trailing zeros of the AVX2 compare mask,
or the first hit of the NEON in-block scalar scan. -/
def blockFind (keys : List Nat) (c : Nat) (i : Nat) : Nat → Option Nat
  | 0 => none
  | cnt + 1 =>
      if keys.getD i 0 = c then some 0
      else (blockFind keys c (i + 1) cnt).map (· + 1)

/-- The AVX2 loop of `SuffixTreeAVX::findChild`:
`for (; i <= count - 32; i += 32)` over 32-byte blocks, extracting the
compare mask and returning `i + ctz(mask)` when it is nonzero, followed by
the scalar tail loop. -/
def avxLoop (keys : List Nat) (c : Nat) (i : Nat) : Option Nat :=
  if i + 32 ≤ keys.length then
    match blockFind keys c i 32 with
    | some j => some (i + j)
    | none => avxLoop keys c (i + 32)
  else scalarFindFrom keys c i
termination_by keys.length - i
decreasing_by omega

/-- `SuffixTreeAVX::findChild` key lookup: empty check, the ≥ 32 gate for
the vector loop, and the scalar fallback. -/
def avxFindIdx (keys : List Nat) (c : Nat) : Option Nat :=
  if keys.length = 0 then none
  else if 32 ≤ keys.length then avxLoop keys c 0
  else scalarFindFrom keys c 0

/-- The NEON loop of `SuffixTreeNeon::findChild`: over 16-byte blocks, the
`vmaxvq_u8` any-lane-matches test, then a scalar scan of the 16-byte block,
followed by the scalar tail loop. -/
def neonLoop (keys : List Nat) (c : Nat) (i : Nat) : Option Nat :=
  if i + 16 ≤ keys.length then
    if (List.range 16).any (fun j => keys.getD (i + j) 0 == c) then
      match blockFind keys c i 16 with
      | some j => some (i + j)
      | none => neonLoop keys c (i + 16)
    else neonLoop keys c (i + 16)
  else scalarFindFrom keys c i
termination_by keys.length - i
decreasing_by all_goals omega

/-- `SuffixTreeNeon::findChild` key lookup: empty check, the ≥ 16 gate for
the vector loop, and the scalar fallback. -/
def neonFindIdx (keys : List Nat) (c : Nat) : Option Nat :=
  if keys.length = 0 then none
  else if 16 ≤ keys.length then neonLoop keys c 0
  else scalarFindFrom keys c 0

/-- `struct Node` of the flat-array variants: parallel `keys` and
`children` vectors. -/
structure FNode where
  start : Int
  endRef : ERef
  suffixLink : Nat
  keys : List Nat
  children : List Nat
  deriving DecidableEq, Repr

instance : Inhabited FNode := ⟨⟨0, ERef.valE 0, 0, [], []⟩⟩

/-- Builder state of the flat-array variants. -/
structure FState where
  nodes : Array FNode
  activeNode : Nat
  activeEdge : Int
  activeLength : Int
  remainder : Int
  leafEnd : Int
  deriving DecidableEq, Repr

instance : Inhabited FState := ⟨⟨#[], 0, 0, 0, 0, 0⟩⟩

/-- `Node::addChild`: append to both parallel vectors. -/
def addChild (n : FNode) (c : Nat) (v : Nat) : FNode :=
  { n with keys := n.keys ++ [c], children := n.children ++ [v] }

/-- `findChild` on a node, given the key-scan strategy: map the found key
position to the parallel `children` entry, or null. -/
def findChild (find : List Nat → Nat → Option Nat) (n : FNode) (c : Nat) : Option Nat :=
  (find n.keys c).map (fun i => n.children.getD i 0)

/-- The scalar replace-scan of the split case
(`for k: if (keys[k] == c) { children[k] = v; break; }`). -/
def replaceChild (n : FNode) (c : Nat) (v : Nat) : FNode :=
  match scalarFindFrom n.keys c 0 with
  | some k => { n with children := n.children.set k v }
  | none => n

/-- Read a node of the flat arena. -/
def fGetNode (st : FState) (i : Nat) : FNode :=
  st.nodes.getD i default

/-- Write a node of the flat arena. -/
def fSetNode (st : FState) (i : Nat) (n : FNode) : FState :=
  { st with nodes := st.nodes.setD i n }

/-- Dereference an `end` pointer in the flat state. -/
def fDerefEnd (st : FState) : ERef → Int
  | ERef.rootE => -1
  | ERef.leafE => st.leafEnd
  | ERef.valE v => v

/-- `edgeLength` of the flat variants. -/
def fEdgeLength (st : FState) (i : Nat) : Int :=
  if i = 0 then 0
  else fDerefEnd st (fGetNode st i).endRef - (fGetNode st i).start + 1

/-- `newNode` of the flat variants. -/
def fPushNode (st : FState) (start : Int) (e : ERef) : FState × Nat :=
  ({ st with
      nodes := st.nodes.push
        { start := start, endRef := e, suffixLink := 0, keys := [], children := [] } },
   st.nodes.size)

/-- `remainder--` and the active-point update, flat variants. -/
def fAfterInsert (st : FState) (pos : Int) : FState :=
  let st1 := { st with remainder := st.remainder - 1 }
  if st1.activeNode = 0 ∧ st1.activeLength > 0 then
    { st1 with
        activeLength := st1.activeLength - 1,
        activeEdge := pos - st1.remainder + 1 }
  else if st1.activeNode ≠ 0 then
    { st1 with activeNode := (fGetNode st1 st1.activeNode).suffixLink }
  else st1

/-- Rule 2, no-edge case of the flat-variant `extend`:
`activeNode->addChild(c, newNode(pos, &leafEnd))` plus suffix-link upkeep,
`remainder--` and the active-point update. -/
def fInsertLeaf (pos : Int) (st1 : FState) (c : Nat) (lastNew : Option Nat) :
    FState × Option Nat :=
  let p := fPushNode st1 pos ERef.leafE
  let st2 := p.1
  let st3 := fSetNode st2 st2.activeNode
    (addChild (fGetNode st2 st2.activeNode) c p.2)
  let st4 := match lastNew with
    | some ln => fSetNode st3 ln { fGetNode st3 ln with suffixLink := st3.activeNode }
    | none => st3
  (fAfterInsert st4 pos, none)

/-- `walkDown` of the flat variants. -/
def fWalkDownStep (st1 : FState) (next : Nat) : FState :=
  { st1 with
      activeEdge := st1.activeEdge + fEdgeLength st1 next,
      activeLength := st1.activeLength - fEdgeLength st1 next,
      activeNode := next }

/-- Rule 3 (showstopper) of the flat variants. -/
def fRule3Step (st1 : FState) (lastNew : Option Nat) : FState :=
  let st2 := match lastNew with
    | some ln =>
        if st1.activeNode ≠ 0 then
          fSetNode st1 ln { fGetNode st1 ln with suffixLink := st1.activeNode }
        else st1
    | none => st1
  { st2 with activeLength := st2.activeLength + 1 }

/-- Rule 2, split case of the flat variants: the scalar replace-scan swaps
`next` for the split node under key `c`, then `next` and a fresh leaf are
appended below the split node. -/
def fSplitStep (txt : List Nat) (pos : Int) (st1 : FState) (c : Nat) (next : Nat)
    (lastNew : Option Nat) : FState × Option Nat :=
  let nextStart := (fGetNode st1 next).start
  let p := fPushNode st1 nextStart (ERef.valE (nextStart + st1.activeLength - 1))
  let st2 := p.1
  let split := p.2
  let st3 := fSetNode st2 st2.activeNode
    (replaceChild (fGetNode st2 st2.activeNode) c split)
  let st4 := fSetNode st3 next
    { fGetNode st3 next with start := (fGetNode st3 next).start + st1.activeLength }
  let st5 := fSetNode st4 split
    (addChild (fGetNode st4 split) (charAt txt (fGetNode st4 next).start) next)
  let q := fPushNode st5 pos ERef.leafE
  let st6 := q.1
  let st7 := fSetNode st6 split
    (addChild (fGetNode st6 split) (charAt txt pos) q.2)
  let st8 := match lastNew with
    | some ln => fSetNode st7 ln { fGetNode st7 ln with suffixLink := split }
    | none => st7
  (fAfterInsert st8 pos, some split)

/-- One iteration of the `while (remainder > 0)` body of the flat-variant
`extend`, parameterised by the key-scan strategy. -/
def fExtendBody (find : List Nat → Nat → Option Nat) (txt : List Nat) (pos : Int)
    (st : FState) (lastNew : Option Nat) : Sum FState (FState × Option Nat) :=
  let st1 := if st.activeLength = 0 then { st with activeEdge := pos } else st
  let c := charAt txt st1.activeEdge
  match findChild find (fGetNode st1 st1.activeNode) c with
  | none => Sum.inr (fInsertLeaf pos st1 c lastNew)
  | some next =>
      if st1.activeLength ≥ fEdgeLength st1 next then
        Sum.inr (fWalkDownStep st1 next, lastNew)
      else if charAt txt ((fGetNode st1 next).start + st1.activeLength) = charAt txt pos then
        Sum.inl (fRule3Step st1 lastNew)
      else
        Sum.inr (fSplitStep txt pos st1 c next lastNew)

/-- The fueled `while (remainder > 0)` loop of the flat-variant `extend`. -/
def fExtendLoop (find : List Nat → Nat → Option Nat) (txt : List Nat) (pos : Int) :
    Nat → FState → Option Nat → Option FState
  | 0, _, _ => none
  | fuel + 1, st, lastNew =>
      if st.remainder ≤ 0 then some st
      else
        match fExtendBody find txt pos st lastNew with
        | Sum.inl st' => some st'
        | Sum.inr (st', lastNew') => fExtendLoop find txt pos fuel st' lastNew'

/-- `extend(pos)` of the flat variants. -/
def fExtend (find : List Nat → Nat → Option Nat) (txt : List Nat) (pos : Int)
    (st : FState) : Option FState :=
  fExtendLoop find txt pos (phaseFuel pos)
    { st with leafEnd := pos, remainder := st.remainder + 1 } none

/-- Initial flat state: a lone root with suffix link to itself. -/
def fInitState : FState :=
  { nodes := #[{ start := -1, endRef := ERef.rootE, suffixLink := 0, keys := [], children := [] }],
    activeNode := 0, activeEdge := -1, activeLength := 0, remainder := 0, leafEnd := -1 }

/-- The flat-variant constructor: sentinel append, then all phases. -/
def fBuild (find : List Nat → Nat → Option Nat) (input : List Nat) : Option FState :=
  (List.range (effectiveText input).length).foldlM
    (fun st i => fExtend find (effectiveText input) (Int.ofNat i) st) fInitState

/-! ### Equivalence of the SIMD key scans with the scalar scan -/

theorem scalarFindFrom_unfold (keys : List Nat) (c i : Nat) :
    scalarFindFrom keys c i =
      if h : i < keys.length then
        (if keys[i] = c then some i else scalarFindFrom keys c (i + 1))
      else none := by
  unfold scalarFindFrom
  by_cases h : i < keys.length
  · rw [dif_pos h, List.drop_eq_getElem_cons h, scanFrom]
  · rw [dif_neg h, List.drop_eq_nil_of_le (by omega), scanFrom]

/-- A block scan of `cnt` in-bounds lanes starting at `i` refines the scalar
scan: the first overall match at position `≥ i` is either `i` plus the first
match inside the block, or, when the block is clean, the first match at
position `≥ i + cnt`. -/
theorem scalarFindFrom_block (keys : List Nat) (c : Nat) :
    ∀ cnt i, i + cnt ≤ keys.length →
      scalarFindFrom keys c i =
        (match blockFind keys c i cnt with
         | some j => some (i + j)
         | none => scalarFindFrom keys c (i + cnt)) := by
  intro cnt
  induction cnt with
  | zero => intro i _; simp [blockFind]
  | succ n ih =>
      intro i hle
      have hi : i < keys.length := by omega
      rw [scalarFindFrom_unfold]
      rw [dif_pos hi]
      rw [blockFind]
      have hgd : keys.getD i 0 = keys[i] := List.getD_eq_getElem keys 0 hi
      by_cases hc : keys[i] = c
      · rw [if_pos hc, if_pos (hgd.trans hc)]
        simp
      · rw [if_neg hc, if_neg (fun h => hc (hgd.symm.trans h))]
        rw [ih (i + 1) (by omega)]
        cases hbf : blockFind keys c (i + 1) n with
        | none => simp [hbf]; congr 1; omega
        | some j => simp [hbf]; omega

theorem avxLoop_eq_scalarFindFrom (keys : List Nat) (c : Nat) :
    ∀ i, avxLoop keys c i = scalarFindFrom keys c i := by
  have H : ∀ k i, keys.length - i ≤ k → avxLoop keys c i = scalarFindFrom keys c i := by
    intro k
    induction k with
    | zero =>
        intro i hk
        rw [avxLoop]
        rw [if_neg (by omega)]
    | succ m ih =>
        intro i hk
        rw [avxLoop]
        by_cases h32 : i + 32 ≤ keys.length
        · rw [if_pos h32, scalarFindFrom_block keys c 32 i h32]
          cases hbf : blockFind keys c i 32 with
          | some j => simp [hbf]
          | none => simp [hbf]; exact ih (i + 32) (by omega)
        · rw [if_neg h32]
  intro i
  exact H (keys.length + 1) i (by omega)

theorem avxFindIdx_eq_scalarFindIdx : ∀ keys c, avxFindIdx keys c = scalarFindIdx keys c := by
  intro keys c
  unfold avxFindIdx scalarFindIdx
  by_cases h0 : keys.length = 0
  · rw [if_pos h0, scalarFindFrom_unfold, dif_neg (by omega)]
  · rw [if_neg h0]
    by_cases h32 : 32 ≤ keys.length
    · rw [if_pos h32, avxLoop_eq_scalarFindFrom]
    · rw [if_neg h32]

theorem blockFind_eq_none_of_noMatch (keys : List Nat) (c : Nat) :
    ∀ cnt i, (∀ j, j < cnt → keys.getD (i + j) 0 ≠ c) → blockFind keys c i cnt = none := by
  intro cnt
  induction cnt with
  | zero => intro i _; rfl
  | succ n ih =>
      intro i h
      rw [blockFind]
      rw [if_neg (by simpa using h 0 (by omega))]
      rw [ih (i + 1) (fun j hj => by simpa [Nat.add_assoc, Nat.add_comm 1 j] using h (j + 1) (by omega))]
      rfl

theorem neonLoop_eq_scalarFindFrom (keys : List Nat) (c : Nat) :
    ∀ i, neonLoop keys c i = scalarFindFrom keys c i := by
  have H : ∀ k i, keys.length - i ≤ k → neonLoop keys c i = scalarFindFrom keys c i := by
    intro k
    induction k with
    | zero =>
        intro i hk
        rw [neonLoop]
        rw [if_neg (by omega)]
    | succ m ih =>
        intro i hk
        rw [neonLoop]
        by_cases h16 : i + 16 ≤ keys.length
        · rw [if_pos h16, scalarFindFrom_block keys c 16 i h16]
          by_cases hany : (List.range 16).any (fun j => keys.getD (i + j) 0 == c)
          · rw [if_pos hany]
            cases hbf : blockFind keys c i 16 with
            | some j => simp [hbf]
            | none => simp [hbf]; exact ih (i + 16) (by omega)
          · rw [if_neg hany]
            have hnm : ∀ j, j < 16 → keys.getD (i + j) 0 ≠ c := by
              intro j hj hcontra
              apply hany
              simp only [List.any_eq_true, List.mem_range]
              exact ⟨j, hj, by simpa using hcontra⟩
            rw [blockFind_eq_none_of_noMatch keys c 16 i hnm]
            exact ih (i + 16) (by omega)
        · rw [if_neg h16]
  intro i
  exact H (keys.length + 1) i (by omega)

theorem neonFindIdx_eq_scalarFindIdx : ∀ keys c, neonFindIdx keys c = scalarFindIdx keys c := by
  intro keys c
  unfold neonFindIdx scalarFindIdx
  by_cases h0 : keys.length = 0
  · rw [if_pos h0, scalarFindFrom_unfold, dif_neg (by omega)]
  · rw [if_neg h0]
    by_cases h16 : 16 ≤ keys.length
    · rw [if_pos h16, neonLoop_eq_scalarFindFrom]
    · rw [if_neg h16]

theorem avxFindIdx_funext : avxFindIdx = scalarFindIdx :=
  funext fun keys => funext fun c => avxFindIdx_eq_scalarFindIdx keys c

theorem neonFindIdx_funext : neonFindIdx = scalarFindIdx :=
  funext fun keys => funext fun c => neonFindIdx_eq_scalarFindIdx keys c

/-! ### Well-formedness of the flat-array dispatch tables -/

/-- Well-formedness of one flat node with respect to the arena size:
pairwise-distinct keys, parallel arrays of equal length, in-range children. -/
def FNodeWf (size : Nat) (n : FNode) : Prop :=
  n.keys.Nodup ∧ n.children.length = n.keys.length ∧ ∀ v ∈ n.children, v < size

/-- Well-formedness of a flat builder state: every node of the arena
(and the default node, off the arena) is well formed. -/
def FWf (st : FState) : Prop :=
  ∀ i : Nat, FNodeWf st.nodes.size (fGetNode st i)

theorem scalarFindFrom_none (keys : List Nat) (c : Nat) :
    ∀ i, scalarFindFrom keys c i = none →
      ∀ j, i ≤ j → j < keys.length → keys.getD j 0 ≠ c := by
  have H : ∀ k i, keys.length - i ≤ k → scalarFindFrom keys c i = none →
      ∀ j, i ≤ j → j < keys.length → keys.getD j 0 ≠ c := by
    intro k
    induction k with
    | zero => intro i hk _ j hij hj; omega
    | succ m ih =>
        intro i hk hnone j hij hj
        rw [scalarFindFrom_unfold] at hnone
        have hi : i < keys.length := by omega
        rw [dif_pos hi] at hnone
        by_cases hc : keys[i] = c
        · rw [if_pos hc] at hnone; exact absurd hnone (by simp)
        · rw [if_neg hc] at hnone
          rcases Nat.eq_or_lt_of_le hij with heq | hlt
          · subst heq; rw [List.getD_eq_getElem keys 0 hj]; exact hc
          · exact ih (i + 1) (by omega) hnone j hlt hj
  exact fun i => H (keys.length + 1) i (by omega)

theorem scalarFindIdx_none_not_mem (keys : List Nat) (c : Nat)
    (h : scalarFindIdx keys c = none) : c ∉ keys := by
  intro hmem
  rcases List.mem_iff_getElem.mp hmem with ⟨j, hj, hget⟩
  exact scalarFindFrom_none keys c 0 h j (Nat.zero_le j) hj
    (by rw [List.getD_eq_getElem keys 0 hj]; exact hget)

theorem scalarFindFrom_some (keys : List Nat) (c : Nat) :
    ∀ i k, scalarFindFrom keys c i = some k →
      i ≤ k ∧ k < keys.length ∧ keys.getD k 0 = c ∧
        ∀ j, i ≤ j → j < k → keys.getD j 0 ≠ c := by
  have H : ∀ m i k, keys.length - i ≤ m → scalarFindFrom keys c i = some k →
      i ≤ k ∧ k < keys.length ∧ keys.getD k 0 = c ∧
        ∀ j, i ≤ j → j < k → keys.getD j 0 ≠ c := by
    intro m
    induction m with
    | zero =>
        intro i k hk hsome
        rw [scalarFindFrom_unfold, dif_neg (by omega)] at hsome
        exact absurd hsome (by simp)
    | succ m ih =>
        intro i k hk hsome
        rw [scalarFindFrom_unfold] at hsome
        by_cases hi : i < keys.length
        · rw [dif_pos hi] at hsome
          by_cases hc : keys[i] = c
          · rw [if_pos hc] at hsome
            have hik : i = k := by simpa using hsome
            subst hik
            exact ⟨Nat.le_refl i, hi, by rw [List.getD_eq_getElem keys 0 hi]; exact hc,
              fun j h1 h2 => by omega⟩
          · rw [if_neg hc] at hsome
            obtain ⟨h1, h2, h3, h4⟩ := ih (i + 1) k (by omega) hsome
            refine ⟨by omega, h2, h3, fun j hij hjk => ?_⟩
            rcases Nat.eq_or_lt_of_le hij with heq | hlt
            · subst heq; rw [List.getD_eq_getElem keys 0 hi]; exact hc
            · exact h4 j hlt hjk
        · rw [dif_neg hi] at hsome; exact absurd hsome (by simp)
  exact fun i k => H (keys.length + 1) i k (by omega)

theorem fGetNode_fSetNode (st : FState) (i : Nat) (n : FNode) (j : Nat) :
    fGetNode (fSetNode st i n) j =
      if i = j ∧ i < st.nodes.size then n else fGetNode st j := by
  unfold fGetNode fSetNode
  simp only [Array.getD_eq_get?, Array.setD]
  by_cases hi : i < st.nodes.size
  · rw [dif_pos hi]
    by_cases hij : i = j
    · subst hij
      rw [if_pos ⟨rfl, hi⟩]
      simp [Array.getElem?_eq_getElem, Array.size_set, hi, Array.getElem_set]
    · rw [if_neg (by tauto)]
      by_cases hj : j < st.nodes.size
      · simp [Array.getElem?_eq_getElem, Array.size_set, hj, Array.getElem_set, hij]
      · rw [Array.getElem?_eq_none_iff.mpr (by simpa [Array.size_set] using hj),
          Array.getElem?_eq_none_iff.mpr (by omega)]
  · rw [dif_neg hi, if_neg (by tauto)]

theorem size_fSetNode (st : FState) (i : Nat) (n : FNode) :
    (fSetNode st i n).nodes.size = st.nodes.size := by
  unfold fSetNode
  exact Array.size_setD st.nodes i n

theorem fGetNode_fPushNode (st : FState) (s : Int) (e : ERef) (j : Nat) :
    fGetNode (fPushNode st s e).1 j =
      if j = st.nodes.size then
        { start := s, endRef := e, suffixLink := 0, keys := [], children := [] }
      else fGetNode st j := by
  unfold fGetNode fPushNode
  simp only [Array.getD_eq_get?]
  by_cases hj : j < st.nodes.size
  · rw [if_neg (by omega)]
    simp [Array.getElem?_eq_getElem, Array.size_push, Nat.lt_succ_of_lt hj, hj,
      Array.getElem_push]
  · by_cases hje : j = st.nodes.size
    · subst hje
      rw [if_pos rfl]
      simp [Array.getElem?_eq_getElem, Array.size_push, Array.getElem_push]
    · rw [if_neg hje]
      rw [Array.getElem?_eq_none_iff.mpr (by simp [Array.size_push]; omega),
        Array.getElem?_eq_none_iff.mpr (by omega)]

theorem size_fPushNode (st : FState) (s : Int) (e : ERef) :
    (fPushNode st s e).1.nodes.size = st.nodes.size + 1 := by
  unfold fPushNode
  exact Array.size_push st.nodes _

theorem FNodeWf_mono {size size' : Nat} (h : size ≤ size') {n : FNode}
    (hn : FNodeWf size n) : FNodeWf size' n :=
  ⟨hn.1, hn.2.1, fun v hv => Nat.lt_of_lt_of_le (hn.2.2 v hv) h⟩

theorem FWf_of_nodes_eq {st st' : FState} (h : st'.nodes = st.nodes)
    (hwf : FWf st) : FWf st' := by
  intro i
  have : fGetNode st' i = fGetNode st i := by unfold fGetNode; rw [h]
  rw [this, h]
  exact hwf i

theorem FWf_fSetNode {st : FState} (hwf : FWf st) (i : Nat) {n : FNode}
    (hn : FNodeWf st.nodes.size n) : FWf (fSetNode st i n) := by
  intro j
  rw [fGetNode_fSetNode, size_fSetNode]
  by_cases hc : i = j ∧ i < st.nodes.size
  · rw [if_pos hc]; exact hn
  · rw [if_neg hc]; exact hwf j

theorem FWf_fPushNode {st : FState} (hwf : FWf st) (s : Int) (e : ERef) :
    FWf (fPushNode st s e).1 := by
  intro j
  rw [fGetNode_fPushNode, size_fPushNode]
  by_cases hc : j = st.nodes.size
  · rw [if_pos hc]
    exact ⟨List.nodup_nil, rfl, by simp⟩
  · rw [if_neg hc]
    exact FNodeWf_mono (Nat.le_succ _) (hwf j)

theorem FWf_fAfterInsert {st : FState} (hwf : FWf st) (pos : Int) :
    FWf (fAfterInsert st pos) := by
  unfold fAfterInsert
  by_cases h1 : ({ st with remainder := st.remainder - 1 } : FState).activeNode = 0 ∧
      ({ st with remainder := st.remainder - 1 } : FState).activeLength > 0
  · rw [if_pos h1]; exact FWf_of_nodes_eq rfl hwf
  · rw [if_neg h1]
    by_cases h2 : ({ st with remainder := st.remainder - 1 } : FState).activeNode ≠ 0
    · rw [if_pos h2]; exact FWf_of_nodes_eq rfl hwf
    · rw [if_neg h2]; exact FWf_of_nodes_eq rfl hwf

/-! ### Preservation of flat-node well-formedness through construction -/


theorem fGetNode_oob (st : FState) (j : Nat) (h : st.nodes.size ≤ j) :
    fGetNode st j = default := by
  unfold fGetNode
  rw [Array.getD_eq_get?, Array.getElem?_eq_none_iff.mpr h]
  rfl

theorem fPushNode_keys (st : FState) (s : Int) (e : ERef) (j : Nat) :
    (fGetNode (fPushNode st s e).1 j).keys = (fGetNode st j).keys := by
  rw [fGetNode_fPushNode]
  by_cases h : j = st.nodes.size
  · rw [if_pos h, h, fGetNode_oob st _ (Nat.le_refl _)]
    rfl
  · rw [if_neg h]

theorem fPushNode_children (st : FState) (s : Int) (e : ERef) (j : Nat) :
    (fGetNode (fPushNode st s e).1 j).children = (fGetNode st j).children := by
  rw [fGetNode_fPushNode]
  by_cases h : j = st.nodes.size
  · rw [if_pos h, h, fGetNode_oob st _ (Nat.le_refl _)]
    rfl
  · rw [if_neg h]

theorem nodup_concat {l : List Nat} {c : Nat} (hl : l.Nodup) (hc : c ∉ l) :
    (l ++ [c]).Nodup := by
  rw [List.nodup_append]
  exact ⟨hl, List.nodup_singleton c, by
    intro a ha hb
    simp only [List.mem_singleton] at hb
    subst hb
    exact hc ha⟩

theorem fInsertLeaf_FWf {st1 : FState} (hwf1 : FWf st1) {c : Nat}
    (hc : c ∉ (fGetNode st1 st1.activeNode).keys) (pos : Int) (lastNew : Option Nat) :
    FWf (fInsertLeaf pos st1 c lastNew).1 := by
  simp only [fInsertLeaf]
  apply FWf_fAfterInsert
  have hwf2 : FWf (fPushNode st1 pos ERef.leafE).1 := FWf_fPushNode hwf1 _ _
  have han : (fPushNode st1 pos ERef.leafE).1.activeNode = st1.activeNode := rfl
  have hsz : (fPushNode st1 pos ERef.leafE).1.nodes.size = st1.nodes.size + 1 :=
    size_fPushNode st1 pos ERef.leafE
  have hnwf : FNodeWf (fPushNode st1 pos ERef.leafE).1.nodes.size
      (addChild (fGetNode (fPushNode st1 pos ERef.leafE).1
        (fPushNode st1 pos ERef.leafE).1.activeNode) c (fPushNode st1 pos ERef.leafE).2) := by
    rw [han]
    refine ⟨?_, ?_, ?_⟩
    · show ((fGetNode (fPushNode st1 pos ERef.leafE).1 st1.activeNode).keys ++ [c]).Nodup
      rw [fPushNode_keys]
      exact nodup_concat (hwf1 st1.activeNode).1 hc
    · show ((fGetNode _ st1.activeNode).children ++ [_]).length =
        ((fGetNode _ st1.activeNode).keys ++ [c]).length
      rw [fPushNode_keys, fPushNode_children]
      simp [(hwf1 st1.activeNode).2.1]
    · intro v hv
      simp only [addChild, List.mem_append, List.mem_singleton] at hv
      rw [fPushNode_children] at hv
      rcases hv with hv | hv
      · exact Nat.lt_of_lt_of_le ((hwf1 st1.activeNode).2.2 v hv) (by omega)
      · subst hv
        show st1.nodes.size < _
        omega
  have hwf3 : FWf (fSetNode (fPushNode st1 pos ERef.leafE).1
      (fPushNode st1 pos ERef.leafE).1.activeNode
      (addChild (fGetNode (fPushNode st1 pos ERef.leafE).1
        (fPushNode st1 pos ERef.leafE).1.activeNode) c (fPushNode st1 pos ERef.leafE).2)) :=
    FWf_fSetNode hwf2 _ hnwf
  cases lastNew with
  | none => exact hwf3
  | some ln => exact FWf_fSetNode hwf3 ln (hwf3 ln)



theorem fWalkDownStep_FWf {st1 : FState} (hwf1 : FWf st1) (next : Nat) :
    FWf (fWalkDownStep st1 next) := by
  unfold fWalkDownStep
  exact FWf_of_nodes_eq rfl hwf1

theorem fRule3Step_FWf {st1 : FState} (hwf1 : FWf st1) (lastNew : Option Nat) :
    FWf (fRule3Step st1 lastNew) := by
  have h2 : FWf (match lastNew with
    | some ln =>
        if st1.activeNode ≠ 0 then
          fSetNode st1 ln { fGetNode st1 ln with suffixLink := st1.activeNode }
        else st1
    | none => st1) := ?_
  · exact FWf_of_nodes_eq rfl h2
  cases lastNew with
  | none => exact hwf1
  | some ln =>
      show FWf (if st1.activeNode ≠ 0 then
        fSetNode st1 ln { fGetNode st1 ln with suffixLink := st1.activeNode } else st1)
      by_cases h : st1.activeNode ≠ 0
      · rw [if_pos h]; exact FWf_fSetNode hwf1 ln (hwf1 ln)
      · rw [if_neg h]; exact hwf1

theorem replaceChild_keys (n : FNode) (c v : Nat) :
    (replaceChild n c v).keys = n.keys := by
  unfold replaceChild
  cases scalarFindFrom n.keys c 0 <;> rfl

theorem replaceChild_start (n : FNode) (c v : Nat) :
    (replaceChild n c v).start = n.start := by
  unfold replaceChild
  cases scalarFindFrom n.keys c 0 <;> rfl

theorem replaceChild_children_nil {n : FNode} (h : n.children = []) (c v : Nat) :
    (replaceChild n c v).children = [] := by
  unfold replaceChild
  cases hf : scalarFindFrom n.keys c 0 with
  | none => exact h
  | some k => show (n.children.set k v) = []; rw [h]; cases k <;> rfl

theorem replaceChild_FNodeWf {size : Nat} {n : FNode} (hn : FNodeWf size n)
    (c : Nat) {v : Nat} (hv : v < size) : FNodeWf size (replaceChild n c v) := by
  unfold replaceChild
  cases hfind : scalarFindFrom n.keys c 0 with
  | none => exact hn
  | some k =>
      refine ⟨hn.1, ?_, ?_⟩
      · show (n.children.set k v).length = n.keys.length
        rw [List.length_set]
        exact hn.2.1
      · intro w hw
        rcases List.mem_or_eq_of_mem_set hw with hw | hw
        · exact hn.2.2 w hw
        · subst hw; exact hv

theorem fSplitStep_FWf {st1 : FState} (hwf1 : FWf st1) (txt : List Nat) (pos : Int)
    (c : Nat) {next : Nat} (hnext : next < st1.nodes.size)
    (hchar : charAt txt ((fGetNode st1 next).start + st1.activeLength) ≠ charAt txt pos)
    (lastNew : Option Nat) :
    FWf (fSplitStep txt pos st1 c next lastNew).1 := by
  simp only [fSplitStep]
  apply FWf_fAfterInsert
  set st2 := (fPushNode st1 (fGetNode st1 next).start
    (ERef.valE ((fGetNode st1 next).start + st1.activeLength - 1))).1 with hst2
  have hwf2 : FWf st2 := FWf_fPushNode hwf1 _ _
  have hsz2 : st2.nodes.size = st1.nodes.size + 1 := size_fPushNode st1 _ _
  have hsplit2 : (fPushNode st1 (fGetNode st1 next).start
      (ERef.valE ((fGetNode st1 next).start + st1.activeLength - 1))).2 = st1.nodes.size := rfl
  rw [hsplit2]
  set split := st1.nodes.size with hsplitdef
  set st3 := fSetNode st2 st2.activeNode
    (replaceChild (fGetNode st2 st2.activeNode) c split) with hst3
  have hwf3 : FWf st3 :=
    FWf_fSetNode hwf2 _ (replaceChild_FNodeWf (hwf2 st2.activeNode) c (by omega))
  have hsz3 : st3.nodes.size = st2.nodes.size := size_fSetNode st2 _ _
  set st4 := fSetNode st3 next
    { fGetNode st3 next with start := (fGetNode st3 next).start + st1.activeLength } with hst4
  have hwf4 : FWf st4 := FWf_fSetNode hwf3 next (hwf3 next)
  have hsz4 : st4.nodes.size = st3.nodes.size := size_fSetNode st3 _ _
  have hnextsplit : next ≠ split := by omega
  -- the split node at the bottom of the chain so far
  have hsplit_st2 : fGetNode st2 split =
      { start := (fGetNode st1 next).start,
        endRef := ERef.valE ((fGetNode st1 next).start + st1.activeLength - 1),
        suffixLink := 0, keys := [], children := [] } := by
    rw [hst2, fGetNode_fPushNode, if_pos hsplitdef.symm]
  have hsplit_st3_keys : (fGetNode st3 split).keys = [] := by
    rw [hst3, fGetNode_fSetNode]
    by_cases h : st2.activeNode = split ∧ st2.activeNode < st2.nodes.size
    · rw [if_pos h, replaceChild_keys, h.1, hsplit_st2]
    · rw [if_neg h, hsplit_st2]
  have hsplit_st3_children : (fGetNode st3 split).children = [] := by
    rw [hst3, fGetNode_fSetNode]
    by_cases h : st2.activeNode = split ∧ st2.activeNode < st2.nodes.size
    · rw [if_pos h]
      refine replaceChild_children_nil ?_ c split
      rw [h.1, hsplit_st2]
    · rw [if_neg h, hsplit_st2]
  have hsplit_st4 : fGetNode st4 split = fGetNode st3 split := by
    rw [hst4, fGetNode_fSetNode, if_neg (by tauto)]
  -- start of `next` after the `next->start += activeLength` update
  have hnext_st2 : (fGetNode st2 next).start = (fGetNode st1 next).start := by
    rw [hst2, fGetNode_fPushNode, if_neg hnextsplit]
  have hnext_st3 : (fGetNode st3 next).start = (fGetNode st1 next).start := by
    rw [hst3, fGetNode_fSetNode]
    by_cases h : st2.activeNode = next ∧ st2.activeNode < st2.nodes.size
    · rw [if_pos h, replaceChild_start, h.1, hnext_st2]
    · rw [if_neg h, hnext_st2]
  have hnext_st4 : (fGetNode st4 next).start =
      (fGetNode st1 next).start + st1.activeLength := by
    rw [hst4, fGetNode_fSetNode, if_pos ⟨rfl, by omega⟩]
    rw [hnext_st3]
  -- the split node after attaching `next`
  have hnwf5 : FNodeWf st4.nodes.size
      (addChild (fGetNode st4 split) (charAt txt (fGetNode st4 next).start) next) := by
    refine ⟨?_, ?_, ?_⟩
    · simp only [addChild]
      rw [hsplit_st4, hsplit_st3_keys]
      exact List.nodup_singleton _
    · simp only [addChild]
      rw [hsplit_st4, hsplit_st3_keys, hsplit_st3_children]
      rfl
    · intro v hv
      simp only [addChild] at hv
      rw [hsplit_st4, hsplit_st3_children] at hv
      simp only [List.nil_append, List.mem_singleton] at hv
      subst hv
      omega
  set st5 := fSetNode st4 split
    (addChild (fGetNode st4 split) (charAt txt (fGetNode st4 next).start) next) with hst5
  have hwf5 : FWf st5 := FWf_fSetNode hwf4 split hnwf5
  have hsz5 : st5.nodes.size = st4.nodes.size := size_fSetNode st4 _ _
  set st6 := (fPushNode st5 pos ERef.leafE).1 with hst6
  have hwf6 : FWf st6 := FWf_fPushNode hwf5 pos ERef.leafE
  have hsz6 : st6.nodes.size = st5.nodes.size + 1 := size_fPushNode st5 pos ERef.leafE
  have hleaf6 : (fPushNode st5 pos ERef.leafE).2 = st5.nodes.size := rfl
  -- the split node in st6: keys [k1], children [next]
  have hsplit_st5 : fGetNode st5 split =
      addChild (fGetNode st4 split) (charAt txt (fGetNode st4 next).start) next := by
    rw [hst5, fGetNode_fSetNode, if_pos ⟨rfl, by omega⟩]
  have hsplit_st6 : fGetNode st6 split = fGetNode st5 split := by
    rw [hst6, fGetNode_fPushNode, if_neg (by omega)]
  have hnwf7 : FNodeWf st6.nodes.size
      (addChild (fGetNode st6 split) (charAt txt pos) (fPushNode st5 pos ERef.leafE).2) := by
    rw [hsplit_st6, hsplit_st5]
    refine ⟨?_, ?_, ?_⟩
    · simp only [addChild]
      rw [hsplit_st4, hsplit_st3_keys]
      simp only [List.nil_append]
      refine nodup_concat (List.nodup_singleton _) ?_
      simp only [List.mem_singleton]
      rw [hnext_st4]
      exact fun h => hchar h.symm
    · simp only [addChild]
      rw [hsplit_st4, hsplit_st3_keys, hsplit_st3_children]
      rfl
    · intro v hv
      simp only [addChild] at hv
      rw [hsplit_st4, hsplit_st3_children] at hv
      simp only [List.nil_append, List.mem_append, List.mem_singleton] at hv
      rcases hv with hv | hv
      · subst hv; omega
      · subst hv; rw [hleaf6]; omega
  set st7 := fSetNode st6 split
    (addChild (fGetNode st6 split) (charAt txt pos) (fPushNode st5 pos ERef.leafE).2) with hst7
  have hwf7 : FWf st7 := FWf_fSetNode hwf6 split hnwf7
  clear_value st7 st6 st5 st4 st3 st2
  cases lastNew with
  | none => exact hwf7
  | some ln =>
      show FWf (fSetNode st7 ln { fGetNode st7 ln with suffixLink := split })
      exact FWf_fSetNode hwf7 ln (hwf7 ln)



/-- The state carried by a loop-body result. -/
def resStateF : Sum FState (FState × Option Nat) → FState :=
  Sum.elim id Prod.fst

theorem findChild_none_not_mem {find : List Nat → Nat → Option Nat}
    (hf : ∀ keys c, find keys c = scalarFindIdx keys c) {n : FNode} {c : Nat}
    (h : findChild find n c = none) : c ∉ n.keys := by
  unfold findChild at h
  rw [Option.map_eq_none'] at h
  rw [hf] at h
  exact scalarFindIdx_none_not_mem n.keys c h

theorem findChild_some_lt {find : List Nat → Nat → Option Nat}
    (hf : ∀ keys c, find keys c = scalarFindIdx keys c) {st : FState} (hwf : FWf st)
    {i : Nat} {c next : Nat}
    (h : findChild find (fGetNode st i) c = some next) : next < st.nodes.size := by
  unfold findChild at h
  rw [Option.map_eq_some'] at h
  obtain ⟨idx, hidx, hnext⟩ := h
  rw [hf] at hidx
  obtain ⟨-, hlt, -, -⟩ := scalarFindFrom_some _ _ _ _ hidx
  have hlen : idx < (fGetNode st i).children.length := by
    rw [(hwf i).2.1]; exact hlt
  rw [List.getD_eq_getElem _ 0 hlen] at hnext
  subst hnext
  exact (hwf i).2.2 _ (List.getElem_mem hlen)

theorem fExtendBody_FWf {find : List Nat → Nat → Option Nat}
    (hf : ∀ keys c, find keys c = scalarFindIdx keys c)
    (txt : List Nat) (pos : Int) {st : FState} (hwf : FWf st) (lastNew : Option Nat) :
    FWf (resStateF (fExtendBody find txt pos st lastNew)) := by
  have hwf1 : FWf (if st.activeLength = 0 then { st with activeEdge := pos } else st) := by
    by_cases h : st.activeLength = 0
    · rw [if_pos h]; exact FWf_of_nodes_eq rfl hwf
    · rw [if_neg h]; exact hwf
  simp only [fExtendBody]
  set st1 := if st.activeLength = 0 then { st with activeEdge := pos } else st with hst1
  clear_value st1
  cases hfc : findChild find (fGetNode st1 st1.activeNode) (charAt txt st1.activeEdge) with
  | none =>
      dsimp only
      simp only [resStateF, Sum.elim_inr]
      exact fInsertLeaf_FWf hwf1 (findChild_none_not_mem hf hfc) pos lastNew
  | some next =>
      dsimp only
      by_cases hwd : st1.activeLength ≥ fEdgeLength st1 next
      · rw [if_pos hwd]
        simp only [resStateF, Sum.elim_inr]
        exact fWalkDownStep_FWf hwf1 next
      · rw [if_neg hwd]
        by_cases hr3 : charAt txt ((fGetNode st1 next).start + st1.activeLength) = charAt txt pos
        · rw [if_pos hr3]
          simp only [resStateF, Sum.elim_inl, id]
          exact fRule3Step_FWf hwf1 lastNew
        · rw [if_neg hr3]
          simp only [resStateF, Sum.elim_inr]
          exact fSplitStep_FWf hwf1 txt pos _ (findChild_some_lt hf hwf1 hfc) hr3 lastNew

theorem fExtendLoop_FWf {find : List Nat → Nat → Option Nat}
    (hf : ∀ keys c, find keys c = scalarFindIdx keys c) (txt : List Nat) (pos : Int) :
    ∀ fuel (st : FState) lastNew st', FWf st →
      fExtendLoop find txt pos fuel st lastNew = some st' → FWf st' := by
  intro fuel
  induction fuel with
  | zero =>
      intro st lastNew st' _ h
      exact absurd h (by simp [fExtendLoop])
  | succ n ih =>
      intro st lastNew st' hwf h
      rw [fExtendLoop] at h
      by_cases hrem : st.remainder ≤ 0
      · rw [if_pos hrem] at h
        injection h with h
        subst h
        exact hwf
      · rw [if_neg hrem] at h
        have hbody := fExtendBody_FWf hf txt pos hwf lastNew
        cases hb : fExtendBody find txt pos st lastNew with
        | inl s =>
            rw [hb] at h
            injection h with h
            subst h
            rw [hb] at hbody
            exact hbody
        | inr p =>
            obtain ⟨s, ln'⟩ := p
            rw [hb] at h hbody
            exact ih s ln' st' hbody h

theorem fExtend_FWf {find : List Nat → Nat → Option Nat}
    (hf : ∀ keys c, find keys c = scalarFindIdx keys c) (txt : List Nat) (pos : Int)
    {st st' : FState} (hwf : FWf st) (h : fExtend find txt pos st = some st') :
    FWf st' := by
  unfold fExtend at h
  exact fExtendLoop_FWf hf txt pos (phaseFuel pos)
    { st with leafEnd := pos, remainder := st.remainder + 1 } none st'
    (FWf_of_nodes_eq rfl hwf) h

theorem FWf_fInitState : FWf fInitState := by
  intro i
  match i with
  | 0 => exact ⟨List.nodup_nil, rfl, fun v hv => absurd hv (List.not_mem_nil v)⟩
  | j + 1 =>
      rw [fGetNode_oob fInitState (j + 1) (by show 1 ≤ j + 1; omega)]
      exact ⟨List.nodup_nil, rfl, fun v hv => absurd hv (List.not_mem_nil v)⟩

theorem fBuild_FWf {find : List Nat → Nat → Option Nat}
    (hf : ∀ keys c, find keys c = scalarFindIdx keys c) (input : List Nat)
    {st : FState} (h : fBuild find input = some st) : FWf st := by
  unfold fBuild at h
  have H : ∀ (l : List Nat) (s : FState), FWf s → ∀ st',
      List.foldlM (fun st i => fExtend find (effectiveText input) (Int.ofNat i) st) s l =
        some st' → FWf st' := by
    intro l
    induction l with
    | nil =>
        intro s hs st' hfold
        rw [List.foldlM_nil] at hfold
        injection hfold with e
        subst e
        exact hs
    | cons a t ih =>
        intro s hs st' hfold
        rw [List.foldlM_cons] at hfold
        cases he : fExtend find (effectiveText input) (Int.ofNat a) s with
        | none => rw [he] at hfold; exact absurd hfold (by simp)
        | some s1 =>
            rw [he] at hfold
            exact ih s1 (fExtend_FWf hf _ _ hs he) st' hfold
  exact H (List.range (effectiveText input).length) fInitState FWf_fInitState st h

/-! ### Claim theorems -/

/-- C5: for every node state and byte, the AVX2 32-byte-block path (taken when
the node has at least 32 keys) and the NEON 16-byte-block path (taken when it
has at least 16 keys), each followed by a scalar tail, return exactly the same
child (or null) as a pure left-to-right scalar scan of the keys array; hence a
scalar-only build produces a tree identical to an AVX or NEON build. -/
theorem claim_C5_simd_scalar_equiv :
    (∀ n c, findChild avxFindIdx n c = findChild scalarFindIdx n c) ∧
    (∀ n c, findChild neonFindIdx n c = findChild scalarFindIdx n c) ∧
    (∀ input, fBuild avxFindIdx input = fBuild scalarFindIdx input) ∧
    (∀ input, fBuild neonFindIdx input = fBuild scalarFindIdx input) := by
  refine ⟨?_, ?_, ?_, ?_⟩
  · intro n c
    unfold findChild
    rw [avxFindIdx_eq_scalarFindIdx]
  · intro n c
    unfold findChild
    rw [neonFindIdx_eq_scalarFindIdx]
  · intro input
    rw [avxFindIdx_funext]
  · intro input
    rw [neonFindIdx_funext]

/-- C8: the constructor appends `'$'` exactly when the input does not already
end in `'$'` (the empty input counts as not ending in `'$'`), so the effective
length is the input length or one more; on the empty input the effective text
is `"$"` and the tree is a root plus a single leaf labelled `"$"` (node count
2, and `search "$"` returns true). -/
theorem claim_C8_sentinel_append :
    (∀ t : List Nat, effectiveText t = t ↔ t.getLast? = some dollar) ∧
    (∀ t : List Nat, (effectiveText t).length = t.length ∨
      (effectiveText t).length = t.length + 1) ∧
    effectiveText [] = [dollar] ∧
    build [] = some
      { nodes := #[{ start := -1, endRef := ERef.rootE, suffixLink := 0,
                     children := [(dollar, 1)] },
                   { start := 0, endRef := ERef.leafE, suffixLink := 0, children := [] }],
        activeNode := 0, activeEdge := 0, activeLength := 0,
        remainder := 0, leafEnd := 0 } ∧
    (build []).map getNodeCount = some 2 ∧
    buildAndSearch [] [dollar] = some true := by
  refine ⟨?_, ?_, by decide, by decide, by decide, by decide⟩
  · intro t
    constructor
    · intro h
      by_contra hne
      rw [effectiveText, if_neg hne] at h
      have := congrArg List.length h
      simp at this
    · intro h
      rw [effectiveText, if_pos h]
  · intro t
    by_cases h : t.getLast? = some dollar
    · left; rw [effectiveText, if_pos h]
    · right; rw [effectiveText, if_neg h]; simp

/-- C9: for every text that does not end in `'$'`, building on the text and
building on the text with `'$'` appended yield the same tree, because both
runs operate on the same effective text. -/
theorem claim_C9_sentinel_idempotent :
    ∀ t : List Nat, t.getLast? ≠ some dollar → build t = build (t ++ [dollar]) := by
  intro t h
  unfold build
  congr 1
  rw [effectiveText, if_neg h, effectiveText, if_pos (List.getLast?_concat t)]

/-- Witness for C9 at the concrete input `"a"`. -/
theorem claim_C9_witness :
    ([97] : List Nat).getLast? ≠ some dollar ∧ build [97] = build ([97] ++ [dollar]) :=
  ⟨by decide, claim_C9_sentinel_idempotent [97] (by decide)⟩

/-- C10: in the flat-array variants (with the scalar, AVX or NEON key scan),
every node's keys array stays pairwise distinct through every phase and in the
final tree, and on a distinct-keys array the scalar first-match scan returns
the unique matching position (so the split-time replace-scan updates exactly
the intended child). -/
theorem claim_C10_flat_keys_distinct :
    ∀ find : List Nat → Nat → Option Nat,
      (∀ keys c, find keys c = scalarFindIdx keys c) →
      (∀ txt pos st st', FWf st → fExtend find txt pos st = some st' → FWf st') ∧
      (∀ input st, fBuild find input = some st →
        ∀ i, ((fGetNode st i).keys).Nodup) ∧
      (∀ (keys : List Nat) (c k : Nat), keys.Nodup → scalarFindIdx keys c = some k →
        ∀ j, j < keys.length → keys.getD j 0 = c → j = k) := by
  intro find hf
  refine ⟨fun txt pos st st' hwf h => fExtend_FWf hf txt pos hwf h, ?_, ?_⟩
  · intro input st h i
    exact (fBuild_FWf hf input h i).1
  · intro keys c k hnodup hfind j hj hget
    obtain ⟨-, hk, hck, hmin⟩ := scalarFindFrom_some keys c 0 k hfind
    by_contra hne
    rcases Nat.lt_or_ge j k with hlt | hge
    · exact hmin j (Nat.zero_le j) hlt hget
    · have : keys[k] = keys[j] := by
        rw [← List.getD_eq_getElem keys 0 hk, ← List.getD_eq_getElem keys 0 hj, hck, hget]
      exact hne ((hnodup.getElem_inj_iff.mp this).symm)

/-- Witness for C10: in the flat scalar build on `"a"`, the root's keys array
(the largest of the tree) is pairwise distinct. -/
theorem claim_C10_witness :
    ((fGetNode ((fBuild scalarFindIdx [97]).iget) 0).keys).Nodup :=
  (claim_C10_flat_keys_distinct scalarFindIdx (fun _ _ => rfl)).2.1 [97] _ (by decide) 0

/-- Counterexample to C4 as stated: on the empty input the effective length is
N = 1 but the node count is 2 > 2·N − 1. -/
theorem claim_C4_counterexample :
    (effectiveText []).length = 1 ∧ (build []).map getNodeCount = some 2 ∧
    ¬(2 ≤ 2 * (effectiveText []).length - 1) := by
  decide

/-! ### Infrastructure for the ordered-map variant: arena, map and slice lemmas -/

theorem getNode_setNode (st : STState) (i : Nat) (n : STNode) (j : Nat) :
    getNode (setNode st i n) j =
      if i = j ∧ i < st.nodes.size then n else getNode st j := by
  unfold getNode setNode
  simp only [Array.getD_eq_get?, Array.setD]
  by_cases hi : i < st.nodes.size
  · rw [dif_pos hi]
    by_cases hij : i = j
    · subst hij
      rw [if_pos ⟨rfl, hi⟩]
      simp [Array.getElem?_eq_getElem, Array.size_set, hi, Array.getElem_set]
    · rw [if_neg (by tauto)]
      by_cases hj : j < st.nodes.size
      · simp [Array.getElem?_eq_getElem, Array.size_set, hj, Array.getElem_set, hij]
      · rw [Array.getElem?_eq_none_iff.mpr (by simpa [Array.size_set] using hj),
          Array.getElem?_eq_none_iff.mpr (by omega)]
  · rw [dif_neg hi, if_neg (by tauto)]

theorem size_setNode (st : STState) (i : Nat) (n : STNode) :
    (setNode st i n).nodes.size = st.nodes.size := by
  unfold setNode
  exact Array.size_setD st.nodes i n

theorem getNode_oob (st : STState) (j : Nat) (h : st.nodes.size ≤ j) :
    getNode st j = default := by
  unfold getNode
  rw [Array.getD_eq_get?, Array.getElem?_eq_none_iff.mpr h]
  rfl

theorem getNode_pushNode (st : STState) (s : Int) (e : ERef) (j : Nat) :
    getNode (pushNode st s e).1 j =
      if j = st.nodes.size then
        { start := s, endRef := e, suffixLink := 0, children := [] }
      else getNode st j := by
  unfold getNode pushNode
  simp only [Array.getD_eq_get?]
  by_cases hj : j < st.nodes.size
  · rw [if_neg (by omega)]
    simp [Array.getElem?_eq_getElem, Array.size_push, Nat.lt_succ_of_lt hj, hj,
      Array.getElem_push]
  · by_cases hje : j = st.nodes.size
    · subst hje
      rw [if_pos rfl]
      simp [Array.getElem?_eq_getElem, Array.size_push, Array.getElem_push]
    · rw [if_neg hje]
      rw [Array.getElem?_eq_none_iff.mpr (by simp [Array.size_push]; omega),
        Array.getElem?_eq_none_iff.mpr (by omega)]

theorem size_pushNode (st : STState) (s : Int) (e : ERef) :
    (pushNode st s e).1.nodes.size = st.nodes.size + 1 := by
  unfold pushNode
  exact Array.size_push st.nodes _

theorem snd_pushNode (st : STState) (s : Int) (e : ERef) :
    (pushNode st s e).2 = st.nodes.size := rfl

/-! `mapFind` / `mapSet` lemmas -/

theorem mapFind_mapSet_self (cs : List (Nat × Nat)) (c v : Nat) :
    mapFind (mapSet cs c v) c = some v := by
  induction cs with
  | nil => simp [mapSet, mapFind]
  | cons kv rest ih =>
      obtain ⟨k, w⟩ := kv
      by_cases hk : k = c
      · simp [mapSet, hk, mapFind]
      · simp [mapSet, hk, mapFind, ih]

theorem mapFind_mapSet_ne (cs : List (Nat × Nat)) (c v c2 : Nat) (h : c2 ≠ c) :
    mapFind (mapSet cs c v) c2 = mapFind cs c2 := by
  induction cs with
  | nil =>
      simp only [mapSet, mapFind]
      rw [if_neg (fun hh => h hh.symm)]
  | cons kv rest ih =>
      obtain ⟨k, w⟩ := kv
      by_cases hk : k = c
      · subst hk
        simp only [mapSet, if_pos rfl, mapFind]
        rw [if_neg (fun hh => h hh.symm), if_neg (fun hh => h hh.symm)]
      · simp only [mapSet, if_neg hk, mapFind]
        by_cases hk2 : k = c2
        · rw [if_pos hk2, if_pos hk2]
        · rw [if_neg hk2, if_neg hk2, ih]

theorem mapFind_mem (cs : List (Nat × Nat)) (c w : Nat)
    (h : mapFind cs c = some w) : (c, w) ∈ cs := by
  induction cs with
  | nil => simp [mapFind] at h
  | cons kv rest ih =>
      obtain ⟨k, v⟩ := kv
      by_cases hk : k = c
      · subst hk
        rw [mapFind, if_pos rfl] at h
        injection h with h
        subst h
        exact List.mem_cons_self _ _
      · rw [mapFind, if_neg hk] at h
        exact List.mem_cons_of_mem _ (ih h)

theorem mem_mapSet (cs : List (Nat × Nat)) (c v : Nat) {k w : Nat}
    (h : (k, w) ∈ mapSet cs c v) : (k, w) ∈ cs ∨ (k = c ∧ w = v) := by
  induction cs with
  | nil =>
      simp [mapSet] at h
      exact Or.inr h
  | cons kv rest ih =>
      obtain ⟨k2, w2⟩ := kv
      by_cases hk : k2 = c
      · subst hk
        simp only [mapSet, if_pos rfl] at h
        rcases List.mem_cons.mp h with h | h
        · injection h with h1 h2; exact Or.inr ⟨h1, h2⟩
        · exact Or.inl (List.mem_cons_of_mem _ h)
      · simp only [mapSet, if_neg hk] at h
        rcases List.mem_cons.mp h with h | h
        · exact Or.inl (h ▸ List.mem_cons_self _ _)
        · rcases ih h with h | h
          · exact Or.inl (List.mem_cons_of_mem _ h)
          · exact Or.inr h

theorem mapSet_length_mem (cs : List (Nat × Nat)) (c v : Nat)
    (h : mapFind cs c ≠ none) : (mapSet cs c v).length = cs.length := by
  induction cs with
  | nil => simp [mapFind] at h
  | cons kv rest ih =>
      obtain ⟨k, w⟩ := kv
      by_cases hk : k = c
      · simp [mapSet, hk]
      · rw [mapFind, if_neg hk] at h
        simp [mapSet, hk, ih h]

theorem mapSet_length_new (cs : List (Nat × Nat)) (c v : Nat)
    (h : mapFind cs c = none) : (mapSet cs c v).length = cs.length + 1 := by
  induction cs with
  | nil => simp [mapSet]
  | cons kv rest ih =>
      obtain ⟨k, w⟩ := kv
      by_cases hk : k = c
      · rw [mapFind, if_pos hk] at h; exact absurd h (by simp)
      · rw [mapFind, if_neg hk] at h
        simp [mapSet, hk, ih h]

theorem mapSet_length_ge (cs : List (Nat × Nat)) (c v : Nat) :
    cs.length ≤ (mapSet cs c v).length := by
  cases h : mapFind cs c with
  | none => rw [mapSet_length_new cs c v h]; omega
  | some w => rw [mapSet_length_mem cs c v (by simp [h])]

theorem mapFind_none_not_mem (cs : List (Nat × Nat)) (c : Nat)
    (h : mapFind cs c = none) : ∀ w, (c, w) ∉ cs := by
  intro w hmem
  induction cs with
  | nil => simp at hmem
  | cons kv rest ih =>
      obtain ⟨k, v⟩ := kv
      by_cases hk : k = c
      · rw [mapFind, if_pos hk] at h; exact absurd h (by simp)
      · rw [mapFind, if_neg hk] at h
        rcases List.mem_cons.mp hmem with heq | hmem2
        · injection heq with h1 h2; exact hk h1.symm
        · exact ih h hmem2

/-! Slices of the text -/

/-- The byte slice `txt[a .. a+l)`, as a list. -/
def slice (txt : List Nat) (a l : Int) : List Nat :=
  (txt.drop a.toNat).take l.toNat

theorem slice_length (txt : List Nat) (a l : Int) (ha : 0 ≤ a) (hl : 0 ≤ l)
    (hbound : a + l ≤ (txt.length : Int)) : (slice txt a l).length = l.toNat := by
  unfold slice
  rw [List.length_take, List.length_drop]
  omega

theorem slice_zero (txt : List Nat) (a : Int) : slice txt a 0 = [] := by
  unfold slice
  simp

theorem slice_getElem (txt : List Nat) (a l : Int) (k : Nat)
    (ha : 0 ≤ a) (hk : (k : Int) < l) (hbound : a + l ≤ (txt.length : Int)) :
    (slice txt a l).getD k 0 = charAt txt (a + k) := by
  unfold slice charAt
  rw [if_pos (by omega)]
  have hkk : k < (txt.drop a.toNat).length := by
    rw [List.length_drop]; omega
  rw [List.getD_eq_getElem _ 0 (by rw [List.length_take]; omega),
    List.getElem_take, List.getElem_drop,
    List.getD_eq_getElem _ 0 (by omega)]
  congr 1
  omega

theorem slice_append (txt : List Nat) (a l1 l2 : Int) (ha : 0 ≤ a) (h1 : 0 ≤ l1)
    (h2 : 0 ≤ l2) (hbound : a + l1 ≤ (txt.length : Int)) :
    slice txt a l1 ++ slice txt (a + l1) l2 = slice txt a (l1 + l2) := by
  unfold slice
  have hdrop : txt.drop (a + l1).toNat = (txt.drop a.toNat).drop l1.toNat := by
    rw [List.drop_drop]
    congr 1
    omega
  rw [hdrop, ← List.take_add]
  congr 1
  omega

theorem slice_one (txt : List Nat) (a : Int) (ha : 0 ≤ a)
    (hbound : a < (txt.length : Int)) : slice txt a 1 = [charAt txt a] := by
  unfold slice charAt
  rw [if_pos ha]
  have h1 : a.toNat < txt.length := by omega
  rw [show (1 : Int).toNat = 1 from rfl]
  rw [List.take_one]
  rw [List.head?_drop]
  rw [List.getElem?_eq_getElem h1]
  simp [List.getD, List.getElem?_eq_getElem h1]

/-! ### Labels and the functional tree walker -/

/-- Length of the edge label of node `v` (meaningful for non-root nodes). -/
def labelLen (st : STState) (v : Nat) : Int :=
  derefEnd st (getNode st v).endRef - (getNode st v).start + 1

/-- The edge label of node `v` as a byte list. -/
def labelL (txt : List Nat) (st : STState) (v : Nat) : List Nat :=
  slice txt (getNode st v).start (labelLen st v)

/-- Walk the byte list `s` down the tree from node `v`; returns the end
position: `(w, 0)` exactly at node `w`, or `(w, k)` at offset `0 < k` inside
the edge leading into `w`.  Fuel bounds the number of edges traversed. -/
def walkPos (txt : List Nat) (st : STState) : Nat → Nat → List Nat → Option (Nat × Nat)
  | 0, _, _ => none
  | fuel + 1, v, s =>
      match s with
      | [] => some (v, 0)
      | c :: _ =>
          match mapFind (getNode st v).children c with
          | none => none
          | some w =>
              if s.length < (labelL txt st w).length then
                if s.isPrefixOf (labelL txt st w) then some (w, s.length) else none
              else
                if (labelL txt st w).isPrefixOf s then
                  walkPos txt st fuel w (s.drop (labelL txt st w).length)
                else none

/-- `s` is present in the tree below `v` (with canonical fuel). -/
def walkOk (txt : List Nat) (st : STState) (v : Nat) (s : List Nat) : Prop :=
  (walkPos txt st (s.length + 1) v s).isSome = true

theorem walkPos_nil (txt : List Nat) (st : STState) (fuel : Nat) (v : Nat) :
    walkPos txt st (fuel + 1) v [] = some (v, 0) := rfl

theorem walkPos_cons (txt : List Nat) (st : STState) (fuel v c : Nat) (rest : List Nat) :
    walkPos txt st (fuel + 1) v (c :: rest) =
      (match mapFind (getNode st v).children c with
       | none => none
       | some w =>
           if (c :: rest).length < (labelL txt st w).length then
             if (c :: rest).isPrefixOf (labelL txt st w) then some (w, (c :: rest).length)
             else none
           else
             if (labelL txt st w).isPrefixOf (c :: rest) then
               walkPos txt st fuel w ((c :: rest).drop (labelL txt st w).length)
             else none) := rfl

theorem walkPos_mono (txt : List Nat) (st : STState) :
    ∀ fuel v s r, walkPos txt st fuel v s = some r →
      walkPos txt st (fuel + 1) v s = some r := by
  intro fuel
  induction fuel with
  | zero => intro v s r h; exact absurd h (by simp [walkPos])
  | succ n ih =>
      intro v s r h
      cases s with
      | nil => rw [walkPos_nil] at h; rw [walkPos_nil]; exact h
      | cons c rest =>
          rw [walkPos_cons] at h
          rw [walkPos_cons]
          cases hfc : mapFind (getNode st v).children c with
          | none => rw [hfc] at h; exact absurd h (by simp)
          | some w =>
              rw [hfc] at h
              dsimp only at h ⊢
              by_cases hlen : (c :: rest).length < (labelL txt st w).length
              · rw [if_pos hlen] at h ⊢; exact h
              · rw [if_neg hlen] at h ⊢
                by_cases hpre : (labelL txt st w).isPrefixOf (c :: rest)
                · rw [if_pos hpre] at h ⊢; exact ih w _ r h
                · rw [if_neg hpre] at h; exact absurd h (by simp)

theorem walkPos_mono_le (txt : List Nat) (st : STState) {fuel fuel2 : Nat}
    (hle : fuel ≤ fuel2) {v : Nat} {s : List Nat} {r : Nat × Nat}
    (h : walkPos txt st fuel v s = some r) : walkPos txt st fuel2 v s = some r := by
  induction fuel2 with
  | zero =>
      have h0 : fuel = 0 := by omega
      subst h0
      exact h
  | succ m ih =>
      by_cases he : fuel = m + 1
      · subst he; exact h
      · exact walkPos_mono txt st m v s r (ih (by omega))

theorem walkPos_det (txt : List Nat) (st : STState) {fuel fuel2 : Nat}
    {v : Nat} {s : List Nat} {r1 r2 : Nat × Nat}
    (h1 : walkPos txt st fuel v s = some r1)
    (h2 : walkPos txt st fuel2 v s = some r2) : r1 = r2 := by
  rcases Nat.le_total fuel fuel2 with hle | hle
  · have h3 := walkPos_mono_le txt st hle h1
    exact Option.some.inj (h3.symm.trans h2)
  · have h3 := walkPos_mono_le txt st hle h2
    exact (Option.some.inj (h3.symm.trans h1)).symm

theorem walkPos_through (txt : List Nat) (st : STState) (fuel : Nat) (v w c : Nat)
    (s : List Nat) (hfc : mapFind (getNode st v).children c = some w)
    (hhead : (labelL txt st w).head? = some c) :
    walkPos txt st (fuel + 1) v (labelL txt st w ++ s) = walkPos txt st fuel w s := by
  cases hL : labelL txt st w with
  | nil => rw [hL] at hhead; exact absurd hhead (by simp)
  | cons x rest =>
      rw [hL] at hhead
      have hx : x = c := by simpa using hhead
      rw [← hx] at hfc
      simp only [List.cons_append]
      rw [walkPos_cons, hfc]
      dsimp only
      rw [hL]
      rw [if_neg (by simp only [List.length_append, List.length_cons]; omega)]
      rw [if_pos (by rw [List.isPrefixOf_iff_prefix]
                     exact ⟨s, by simp⟩)]
      congr 1
      simp only [List.length_cons]
      rw [show x :: (rest ++ s) = (x :: rest) ++ s from rfl]
      rw [List.drop_append_of_le_length (by simp)]
      simp

theorem walkPos_inside (txt : List Nat) (st : STState) (fuel : Nat) (v w c : Nat)
    (s : List Nat) (hfc : mapFind (getNode st v).children c = some w)
    (hhead : s.head? = some c) (hlen : s.length < (labelL txt st w).length)
    (hpre : s.IsPrefix (labelL txt st w)) :
    walkPos txt st (fuel + 1) v s = some (w, s.length) := by
  cases s with
  | nil => exact absurd hhead (by simp)
  | cons x rest =>
      have hx : x = c := by simpa using hhead
      subst hx
      rw [walkPos_cons, hfc]
      dsimp only
      rw [if_pos hlen, if_pos (List.isPrefixOf_iff_prefix.mpr hpre)]

theorem walkPos_append_exact (txt : List Nat) (st : STState) :
    ∀ fuel fuel2 v w s1 s2 r, walkPos txt st fuel v s1 = some (w, 0) →
      walkPos txt st fuel2 w s2 = some r →
      walkPos txt st (fuel + fuel2) v (s1 ++ s2) = some r := by
  intro fuel
  induction fuel with
  | zero => intro fuel2 v w s1 s2 r h; exact absurd h (by simp [walkPos])
  | succ n ih =>
      intro fuel2 v w s1 s2 r h1 h2
      cases s1 with
      | nil =>
          rw [walkPos_nil] at h1
          injection h1 with h1
          have hv : v = w := congrArg Prod.fst h1
          subst hv
          simp only [List.nil_append]
          exact walkPos_mono_le txt st (by omega) h2
      | cons c rest =>
          rw [walkPos_cons] at h1
          cases hfc : mapFind (getNode st v).children c with
          | none => rw [hfc] at h1; exact absurd h1 (by simp)
          | some u =>
              rw [hfc] at h1
              dsimp only at h1
              by_cases hlen : (c :: rest).length < (labelL txt st u).length
              · rw [if_pos hlen] at h1
                by_cases hpre : (c :: rest).isPrefixOf (labelL txt st u)
                · rw [if_pos hpre] at h1
                  injection h1 with h1
                  have hk := congrArg Prod.snd h1
                  simp at hk
                · rw [if_neg hpre] at h1; exact absurd h1 (by simp)
              · rw [if_neg hlen] at h1
                by_cases hpre : (labelL txt st u).isPrefixOf (c :: rest)
                · rw [if_pos hpre] at h1
                  have hih := ih fuel2 u w _ s2 r h1 h2
                  rw [show n + 1 + fuel2 = (n + fuel2) + 1 from by omega]
                  show walkPos txt st ((n + fuel2) + 1) v ((c :: rest) ++ s2) = some r
                  rw [show (c :: rest) ++ s2 = c :: (rest ++ s2) from rfl]
                  rw [walkPos_cons, hfc]
                  dsimp only
                  have hpre2 : (labelL txt st u).isPrefixOf (c :: (rest ++ s2)) := by
                    rw [List.isPrefixOf_iff_prefix] at hpre ⊢
                    rw [show c :: (rest ++ s2) = (c :: rest) ++ s2 from rfl]
                    exact hpre.trans (List.prefix_append _ _)
                  rw [if_neg (by
                    rw [List.isPrefixOf_iff_prefix] at hpre
                    have := hpre.length_le
                    simp only [List.length_cons, List.length_append] at *
                    omega)]
                  rw [if_pos hpre2]
                  have hdrop : (c :: (rest ++ s2)).drop (labelL txt st u).length =
                      (c :: rest).drop (labelL txt st u).length ++ s2 := by
                    rw [show c :: (rest ++ s2) = (c :: rest) ++ s2 from rfl]
                    rw [List.drop_append_of_le_length (by
                      rw [List.isPrefixOf_iff_prefix] at hpre
                      exact hpre.length_le)]
                  rw [hdrop]
                  exact hih
                · rw [if_neg hpre] at h1; exact absurd h1 (by simp)

theorem walkPos_append_node (txt : List Nat) (st : STState)
    (fuel fuel2 : Nat) (v w : Nat) (s1 s2 : List Nat)
    (h1 : walkPos txt st fuel v s1 = some (w, 0))
    (h2 : (walkPos txt st fuel2 w s2).isSome = true) :
    (walkPos txt st (fuel + fuel2) v (s1 ++ s2)).isSome = true := by
  cases hr : walkPos txt st fuel2 w s2 with
  | none => rw [hr] at h2; exact absurd h2 (by simp)
  | some r =>
      rw [walkPos_append_exact txt st fuel fuel2 v w s1 s2 r h1 hr]
      rfl

theorem prefix_snoc_getD {l L : List Nat} (hpre : l.IsPrefix L) (hlt : l.length < L.length) :
    (l ++ [L.getD l.length 0]).IsPrefix L := by
  obtain ⟨t, ht⟩ := hpre
  cases t with
  | nil =>
      rw [List.append_nil] at ht
      subst ht
      omega
  | cons x ts =>
      refine ⟨ts, ?_⟩
      rw [← ht]
      have hx : (l ++ x :: ts).getD l.length 0 = x := by
        rw [List.getD_eq_getElem _ 0 (by simp)]
        rw [List.getElem_append_right (Nat.le_refl _)]
        simp
      rw [hx]
      simp

theorem isPrefix_getD_eq {l L : List Nat} (hpre : l.IsPrefix L) (k : Nat)
    (hk : k < l.length) : l.getD k 0 = L.getD k 0 := by
  obtain ⟨t, ht⟩ := hpre
  rw [← ht]
  have hk2 : k < (l ++ t).length := by
    simp only [List.length_append]
    omega
  rw [List.getD_eq_getElem _ 0 hk, List.getD_eq_getElem _ 0 hk2]
  rw [List.getElem_append_left hk]

theorem walkPos_snoc_mid (txt : List Nat) (st : STState) :
    ∀ fuel v s w k, walkPos txt st fuel v s = some (w, k) → 0 < k →
      k < (labelL txt st w).length →
      (walkPos txt st (fuel + 1) v (s ++ [(labelL txt st w).getD k 0])).isSome = true := by
  intro fuel
  induction fuel with
  | zero => intro v s w k h; exact absurd h (by simp [walkPos])
  | succ n ih =>
      intro v s w k h hk hklen
      cases s with
      | nil =>
          rw [walkPos_nil] at h
          injection h with h
          have : (0 : Nat) = k := congrArg Prod.snd h
          omega
      | cons c rest =>
          rw [walkPos_cons] at h
          cases hfc : mapFind (getNode st v).children c with
          | none => rw [hfc] at h; exact absurd h (by simp)
          | some u =>
              rw [hfc] at h
              dsimp only at h
              by_cases hlen : (c :: rest).length < (labelL txt st u).length
              · rw [if_pos hlen] at h
                by_cases hpre : (c :: rest).isPrefixOf (labelL txt st u)
                · rw [if_pos hpre] at h
                  injection h with h
                  have hw : u = w := congrArg Prod.fst h
                  have hks : (c :: rest).length = k := congrArg Prod.snd h
                  subst hw
                  rw [← hks] at hklen hk ⊢
                  rw [List.isPrefixOf_iff_prefix] at hpre
                  have hpre2 := prefix_snoc_getD hpre hklen
                  show (walkPos txt st (n + 1 + 1) v
                    ((c :: rest) ++ [(labelL txt st u).getD (c :: rest).length 0])).isSome = true
                  rw [show (c :: rest) ++ [(labelL txt st u).getD (c :: rest).length 0] =
                    c :: (rest ++ [(labelL txt st u).getD (c :: rest).length 0]) from rfl]
                  rw [walkPos_cons, hfc]
                  dsimp only
                  by_cases hlen2 : (c :: (rest ++ [(labelL txt st u).getD (c :: rest).length 0])).length <
                      (labelL txt st u).length
                  · rw [if_pos hlen2]
                    rw [if_pos (List.isPrefixOf_iff_prefix.mpr (by
                      simpa using hpre2))]
                    rfl
                  · rw [if_neg hlen2]
                    have heq : c :: (rest ++ [(labelL txt st u).getD (c :: rest).length 0]) =
                        labelL txt st u := by
                      have hlen3 : (c :: rest).length + 1 = (labelL txt st u).length := by
                        simp at hlen2 hlen ⊢
                        omega
                      refine List.IsPrefix.eq_of_length (by simpa using hpre2) ?_
                      simpa using hlen3
                    rw [if_pos (List.isPrefixOf_iff_prefix.mpr (by rw [heq]))]
                    rw [heq]
                    rw [List.drop_length]
                    rw [walkPos_nil]
                    rfl
                · rw [if_neg hpre] at h; exact absurd h (by simp)
              · rw [if_neg hlen] at h
                by_cases hpre : (labelL txt st u).isPrefixOf (c :: rest)
                · rw [if_pos hpre] at h
                  have hih := ih u _ w k h hk hklen
                  show (walkPos txt st (n + 1 + 1) v
                    ((c :: rest) ++ [(labelL txt st w).getD k 0])).isSome = true
                  rw [show (c :: rest) ++ [(labelL txt st w).getD k 0] =
                    c :: (rest ++ [(labelL txt st w).getD k 0]) from rfl]
                  rw [walkPos_cons, hfc]
                  dsimp only
                  rw [List.isPrefixOf_iff_prefix] at hpre
                  rw [if_neg (by
                    have := hpre.length_le
                    simp only [List.length_cons, List.length_append, List.length_cons] at *
                    omega)]
                  rw [if_pos (List.isPrefixOf_iff_prefix.mpr (by
                    rw [show c :: (rest ++ [(labelL txt st w).getD k 0]) =
                      (c :: rest) ++ [(labelL txt st w).getD k 0] from rfl]
                    exact hpre.trans (List.prefix_append _ _)))]
                  rw [show c :: (rest ++ [(labelL txt st w).getD k 0]) =
                    (c :: rest) ++ [(labelL txt st w).getD k 0] from rfl]
                  rw [List.drop_append_of_le_length hpre.length_le]
                  exact hih
                · rw [if_neg hpre] at h; exact absurd h (by simp)

theorem walkPos_snoc_node (txt : List Nat) (st : STState) :
    ∀ fuel v s w d u, walkPos txt st fuel v s = some (w, 0) →
      mapFind (getNode st w).children d = some u →
      (labelL txt st u).head? = some d →
      (walkPos txt st (fuel + 1) v (s ++ [d])).isSome = true := by
  intro fuel
  induction fuel with
  | zero => intro v s w d u h; exact absurd h (by simp [walkPos])
  | succ n ih =>
      intro v s w d u h hfd hhead
      cases s with
      | nil =>
          rw [walkPos_nil] at h
          injection h with h
          have hv : v = w := congrArg Prod.fst h
          subst hv
          simp only [List.nil_append]
          rw [show [d] = d :: ([] : List Nat) from rfl, walkPos_cons, hfd]
          dsimp only
          cases hL : labelL txt st u with
          | nil => rw [hL] at hhead; exact absurd hhead (by simp)
          | cons x ts =>
              rw [hL] at hhead
              have hx : x = d := by simpa using hhead
              subst hx
              by_cases hlen : (1 : Nat) < (x :: ts).length
              · rw [if_pos (by simpa using hlen)]
                rw [if_pos (List.isPrefixOf_iff_prefix.mpr ⟨ts, by simp⟩)]
                rfl
              · have hts : ts = [] := by
                  cases ts with
                  | nil => rfl
                  | cons y ys => simp at hlen
                subst hts
                rw [if_neg (by simp)]
                rw [if_pos (List.isPrefixOf_iff_prefix.mpr (by simp))]
                simp only [List.length_cons, List.length_nil]
                rw [List.drop_one]
                simp only [List.tail_cons]
                rw [walkPos_nil]
                rfl
      | cons c rest =>
          rw [walkPos_cons] at h
          cases hfc : mapFind (getNode st v).children c with
          | none => rw [hfc] at h; exact absurd h (by simp)
          | some u2 =>
              rw [hfc] at h
              dsimp only at h
              by_cases hlen : (c :: rest).length < (labelL txt st u2).length
              · rw [if_pos hlen] at h
                by_cases hpre : (c :: rest).isPrefixOf (labelL txt st u2)
                · rw [if_pos hpre] at h
                  injection h with h
                  have hks : (c :: rest).length = 0 := congrArg Prod.snd h
                  simp at hks
                · rw [if_neg hpre] at h; exact absurd h (by simp)
              · rw [if_neg hlen] at h
                by_cases hpre : (labelL txt st u2).isPrefixOf (c :: rest)
                · rw [if_pos hpre] at h
                  have hih := ih u2 _ w d u h hfd hhead
                  show (walkPos txt st (n + 1 + 1) v ((c :: rest) ++ [d])).isSome = true
                  rw [show (c :: rest) ++ [d] = c :: (rest ++ [d]) from rfl]
                  rw [walkPos_cons, hfc]
                  dsimp only
                  rw [List.isPrefixOf_iff_prefix] at hpre
                  rw [if_neg (by
                    have := hpre.length_le
                    simp only [List.length_cons, List.length_append, List.length_cons] at *
                    omega)]
                  rw [if_pos (List.isPrefixOf_iff_prefix.mpr (by
                    rw [show c :: (rest ++ [d]) = (c :: rest) ++ [d] from rfl]
                    exact hpre.trans (List.prefix_append _ _)))]
                  rw [show c :: (rest ++ [d]) = (c :: rest) ++ [d] from rfl]
                  rw [List.drop_append_of_le_length hpre.length_le]
                  exact hih
                · rw [if_neg hpre] at h; exact absurd h (by simp)

theorem walkPos_snoc_inv (txt : List Nat) (st : STState) :
    ∀ fuel v s w k d fuel2, walkPos txt st fuel v s = some (w, k) → 0 < k →
      k < (labelL txt st w).length →
      (walkPos txt st fuel2 v (s ++ [d])).isSome = true →
      d = (labelL txt st w).getD k 0 := by
  intro fuel
  induction fuel with
  | zero => intro v s w k d fuel2 h; exact absurd h (by simp [walkPos])
  | succ n ih =>
      intro v s w k d fuel2 h hk hklen hsnoc
      cases s with
      | nil =>
          rw [walkPos_nil] at h
          injection h with h
          have : (0 : Nat) = k := congrArg Prod.snd h
          omega
      | cons c rest =>
          rw [walkPos_cons] at h
          cases hfc : mapFind (getNode st v).children c with
          | none => rw [hfc] at h; exact absurd h (by simp)
          | some u =>
              rw [hfc] at h
              dsimp only at h
              -- analyse the snoc walk, which begins with the same lookup
              cases fuel2 with
              | zero => exact absurd hsnoc (by simp [walkPos])
              | succ m =>
                  rw [show (c :: rest) ++ [d] = c :: (rest ++ [d]) from rfl] at hsnoc
                  rw [walkPos_cons, hfc] at hsnoc
                  dsimp only at hsnoc
                  by_cases hlen : (c :: rest).length < (labelL txt st u).length
                  · rw [if_pos hlen] at h
                    by_cases hpre : (c :: rest).isPrefixOf (labelL txt st u)
                    · rw [if_pos hpre] at h
                      injection h with h
                      have hw : u = w := congrArg Prod.fst h
                      have hks : (c :: rest).length = k := congrArg Prod.snd h
                      subst hw
                      rw [List.isPrefixOf_iff_prefix] at hpre
                      by_cases hlen2 : (c :: (rest ++ [d])).length < (labelL txt st u).length
                      · rw [if_pos hlen2] at hsnoc
                        by_cases hpre2 : (c :: (rest ++ [d])).isPrefixOf (labelL txt st u)
                        · rw [List.isPrefixOf_iff_prefix] at hpre2
                          have hthis := isPrefix_getD_eq hpre2 (c :: rest).length (by simp)
                          rw [hks] at hthis
                          have hgd : (c :: (rest ++ [d])).getD k 0 = d := by
                            subst hks
                            rw [show c :: (rest ++ [d]) = (c :: rest) ++ [d] from rfl]
                            rw [List.getD_eq_getElem _ 0 (by simp)]
                            rw [List.getElem_append_right (Nat.le_refl _)]
                            simp
                          exact hgd.symm.trans hthis
                        · rw [if_neg hpre2] at hsnoc; exact absurd hsnoc (by simp)
                      · rw [if_neg hlen2] at hsnoc
                        by_cases hpre2 : (labelL txt st u).isPrefixOf (c :: (rest ++ [d]))
                        · rw [List.isPrefixOf_iff_prefix] at hpre2
                          have heq : c :: (rest ++ [d]) = labelL txt st u := by
                            refine (List.IsPrefix.eq_of_length hpre2 ?_).symm
                            have h8 : (labelL txt st u).length ≤
                                (c :: (rest ++ [d])).length := hpre2.length_le
                            have h9 : (c :: rest).length < (labelL txt st u).length := hlen
                            simp at h8 h9 ⊢
                            omega
                          have hthis := congrArg (fun l => l.getD k 0) heq
                          simp only at hthis
                          have hgd : (c :: (rest ++ [d])).getD k 0 = d := by
                            subst hks
                            rw [show c :: (rest ++ [d]) = (c :: rest) ++ [d] from rfl]
                            rw [List.getD_eq_getElem _ 0 (by simp)]
                            rw [List.getElem_append_right (Nat.le_refl _)]
                            simp
                          exact hgd.symm.trans hthis
                        · rw [if_neg hpre2] at hsnoc; exact absurd hsnoc (by simp)
                    · rw [if_neg hpre] at h; exact absurd h (by simp)
                  · rw [if_neg hlen] at h
                    by_cases hpre : (labelL txt st u).isPrefixOf (c :: rest)
                    · rw [if_pos hpre] at h
                      rw [List.isPrefixOf_iff_prefix] at hpre
                      rw [if_neg (by
                        have h9 := hpre.length_le
                        simp only [List.length_cons, List.length_append,
                          List.length_singleton] at h9 ⊢
                        omega)] at hsnoc
                      rw [if_pos (List.isPrefixOf_iff_prefix.mpr (by
                        rw [show c :: (rest ++ [d]) = (c :: rest) ++ [d] from rfl]
                        exact hpre.trans (List.prefix_append _ _)))] at hsnoc
                      rw [show c :: (rest ++ [d]) = (c :: rest) ++ [d] from rfl] at hsnoc
                      rw [List.drop_append_of_le_length hpre.length_le] at hsnoc
                      exact ih u _ w k d m h hk hklen hsnoc
                    · rw [if_neg hpre] at h; exact absurd h (by simp)

/-! ### Preservation of walks under the builder's tree edits -/

/-- Every child reference of every node is a valid non-root arena index. -/
def ChildrenBounded (st : STState) : Prop :=
  ∀ v c w, mapFind (getNode st v).children c = some w → 1 ≤ w ∧ w < st.nodes.size

/-- `s` is present in the tree below `v`, with unspecified fuel. -/
def walkE (txt : List Nat) (st : STState) (v : Nat) (s : List Nat) : Prop :=
  ∃ fuel, (walkPos txt st fuel v s).isSome = true

/-- Walks are insensitive to the exact state as long as every node keeps its
children, its label list, and the arena size is not smaller. -/
theorem walkPos_congr (txt : List Nat) (st st2 : STState)
    (hch : ∀ j, (getNode st2 j).children = (getNode st j).children)
    (hlab : ∀ j, labelL txt st2 j = labelL txt st j) :
    ∀ fuel v s, walkPos txt st2 fuel v s = walkPos txt st fuel v s := by
  intro fuel
  induction fuel with
  | zero => intro v s; rfl
  | succ n ih =>
      intro v s
      cases s with
      | nil => rw [walkPos_nil, walkPos_nil]
      | cons c rest =>
          rw [walkPos_cons, walkPos_cons, hch]
          cases mapFind (getNode st v).children c with
          | none => rfl
          | some w =>
              dsimp only
              rw [hlab, ih]

theorem getNode_pushNode_of_lt (st : STState) (s : Int) (e : ERef) (j : Nat)
    (hj : j ≠ st.nodes.size) :
    getNode (pushNode st s e).1 j = getNode st j := by
  rw [getNode_pushNode, if_neg hj]

/-- Pushing a fresh node changes no existing walk. -/
theorem walkPos_pushNode (txt : List Nat) (st : STState) (s0 : Int) (e : ERef)
    (hCB : ChildrenBounded st) :
    ∀ fuel v s, walkPos txt (pushNode st s0 e).1 fuel v s = walkPos txt st fuel v s := by
  have hleaf : (pushNode st s0 e).1.leafEnd = st.leafEnd := rfl
  intro fuel
  induction fuel with
  | zero => intro v s; rfl
  | succ n ih =>
      intro v s
      cases s with
      | nil => rw [walkPos_nil, walkPos_nil]
      | cons c rest =>
          rw [walkPos_cons, walkPos_cons]
          have hch : (getNode (pushNode st s0 e).1 v).children = (getNode st v).children := by
            by_cases hv : v = st.nodes.size
            · subst hv
              rw [getNode_pushNode, if_pos rfl, getNode_oob st _ (Nat.le_refl _)]
              rfl
            · rw [getNode_pushNode_of_lt st s0 e v hv]
          rw [hch]
          cases hfc : mapFind (getNode st v).children c with
          | none => rfl
          | some w =>
              dsimp only
              have hwlt : w < st.nodes.size := (hCB v c w hfc).2
              have hlab : labelL txt (pushNode st s0 e).1 w = labelL txt st w := by
                unfold labelL labelLen
                rw [getNode_pushNode_of_lt st s0 e w (by omega)]
                have hde : ∀ er, derefEnd (pushNode st s0 e).1 er = derefEnd st er := by
                  intro er
                  cases er <;> rfl
                rw [hde]
              rw [hlab, ih]

/-- Setting a node without touching its children, start or end pointer
(a suffix-link write) changes no walk. -/
theorem walkPos_setNode_sl (txt : List Nat) (st : STState) (i : Nat) (n : STNode)
    (hch : n.children = (getNode st i).children)
    (hst : n.start = (getNode st i).start)
    (hend : n.endRef = (getNode st i).endRef) :
    ∀ fuel v s, walkPos txt (setNode st i n) fuel v s = walkPos txt st fuel v s := by
  apply walkPos_congr
  · intro j
    rw [getNode_setNode]
    by_cases hc : i = j ∧ i < st.nodes.size
    · rw [if_pos hc, ← hc.1, hch]
    · rw [if_neg hc]
  · intro j
    unfold labelL labelLen
    have hde : ∀ er, derefEnd (setNode st i n) er = derefEnd st er := by
      intro er
      cases er <;> rfl
    rw [hde, getNode_setNode]
    by_cases hc : i = j ∧ i < st.nodes.size
    · rw [if_pos hc, ← hc.1, hst, hend]
    · rw [if_neg hc]

/-- Adding a child under a key that is absent preserves every existing walk. -/
theorem walkPos_addChild (txt : List Nat) (st : STState) (a : Nat) (cnew leaf : Nat)
    (hCB : ChildrenBounded st)
    (hnone : mapFind (getNode st a).children cnew = none) :
    ∀ fuel v s r,
      walkPos txt st fuel v s = some r →
      walkPos txt
        (setNode st a { getNode st a with
          children := mapSet (getNode st a).children cnew leaf }) fuel v s = some r := by
  intro fuel
  induction fuel with
  | zero => intro v s r h; exact absurd h (by simp [walkPos])
  | succ n ih =>
      intro v s r h
      cases s with
      | nil => rw [walkPos_nil] at h ⊢; exact h
      | cons c rest =>
          rw [walkPos_cons] at h ⊢
          have hde : ∀ er, derefEnd (setNode st a
              { getNode st a with
                children := mapSet (getNode st a).children cnew leaf }) er =
              derefEnd st er := by
            intro er
            cases er <;> rfl
          cases hfc : mapFind (getNode st v).children c with
          | none => rw [hfc] at h; exact absurd h (by simp)
          | some w =>
              rw [hfc] at h
              dsimp only at h
              have hfc2 : mapFind (getNode (setNode st a
                  { getNode st a with
                    children := mapSet (getNode st a).children cnew leaf }) v).children c =
                  some w := by
                rw [getNode_setNode]
                by_cases hc : a = v ∧ a < st.nodes.size
                · obtain ⟨hav, halt⟩ := hc
                  subst hav
                  rw [if_pos ⟨rfl, halt⟩]
                  show mapFind (mapSet (getNode st a).children cnew leaf) c = some w
                  by_cases hcc : c = cnew
                  · subst hcc
                    rw [hnone] at hfc
                    exact absurd hfc (by simp)
                  · rw [mapFind_mapSet_ne _ _ _ _ hcc]
                    exact hfc
                · rw [if_neg hc]
                  exact hfc
              rw [hfc2]
              dsimp only
              have hwlt : w < st.nodes.size := (hCB v c w hfc).2
              have hlab : labelL txt (setNode st a
                  { getNode st a with
                    children := mapSet (getNode st a).children cnew leaf }) w =
                  labelL txt st w := by
                unfold labelL labelLen
                rw [hde, getNode_setNode]
                by_cases hc : a = w ∧ a < st.nodes.size
                · rw [if_pos hc]
                  show slice txt (getNode st a).start _ = _
                  rw [← hc.1]
                · rw [if_neg hc]
              rw [hlab]
              by_cases hlen : (c :: rest).length < (labelL txt st w).length
              · rw [if_pos hlen] at h ⊢; exact h
              · rw [if_neg hlen] at h ⊢
                by_cases hpre : (labelL txt st w).isPrefixOf (c :: rest)
                · rw [if_pos hpre] at h ⊢
                  exact ih w _ r h
                · rw [if_neg hpre] at h; exact absurd h (by simp)

theorem take_prefix_take {x : List Nat} {l1 l2 : Nat} (h : l1 ≤ l2) :
    (x.take l1).IsPrefix (x.take l2) := by
  refine ⟨(x.take l2).drop l1, ?_⟩
  have h1 : (x.take l2).take l1 = x.take l1 := by
    rw [List.take_take]
    congr 1
    omega
  rw [← h1]
  exact List.take_append_drop l1 (x.take l2)

theorem slice_prefix_slice (txt : List Nat) (a : Int) {l1 l2 : Int} (h : l1 ≤ l2) :
    (slice txt a l1).IsPrefix (slice txt a l2) := by
  unfold slice
  exact take_prefix_take (by omega)

/-- Growing the global leaf end (the `leafEnd = pos` step of a new phase)
preserves every walk: leaf labels only get longer, and leaves have no
children. -/
theorem walkPos_leafGrow (txt : List Nat) (st st2 : STState)
    (hnodes : st2.nodes = st.nodes) (hle : st.leafEnd ≤ st2.leafEnd)
    (hleafch : ∀ w, (getNode st w).endRef = ERef.leafE → (getNode st w).children = []) :
    ∀ fuel v s, (walkPos txt st fuel v s).isSome = true →
      (walkPos txt st2 fuel v s).isSome = true := by
  have hget : ∀ j, getNode st2 j = getNode st j := by
    intro j
    unfold getNode
    rw [hnodes]
  intro fuel
  induction fuel with
  | zero => intro v s h; exact absurd h (by simp [walkPos])
  | succ n ih =>
      intro v s h
      cases s with
      | nil => rw [walkPos_nil]; rfl
      | cons c rest =>
          rw [walkPos_cons] at h ⊢
          rw [hget]
          cases hfc : mapFind (getNode st v).children c with
          | none => rw [hfc] at h; exact absurd h (by simp)
          | some w =>
              rw [hfc] at h
              dsimp only at h ⊢
              have hpre_lab : (labelL txt st w).IsPrefix (labelL txt st2 w) := by
                unfold labelL labelLen
                rw [hget]
                cases her : (getNode st w).endRef with
                | rootE => exact List.prefix_refl _
                | valE k => exact List.prefix_refl _
                | leafE =>
                    refine slice_prefix_slice txt _ ?_
                    show (derefEnd st2 ERef.leafE : Int) - _ + 1 ≥
                      derefEnd st ERef.leafE - _ + 1
                    show st.leafEnd - _ + 1 ≤ st2.leafEnd - _ + 1
                    omega
              by_cases hlen : (c :: rest).length < (labelL txt st w).length
              · rw [if_pos hlen] at h
                rw [if_pos (by
                  have := hpre_lab.length_le
                  omega)]
                rw [if_pos (by
                  rw [List.isPrefixOf_iff_prefix] at *
                  by_cases hp : (c :: rest).IsPrefix (labelL txt st w)
                  · exact hp.trans hpre_lab
                  · rw [if_neg (by rw [List.isPrefixOf_iff_prefix]; exact hp)] at h
                    exact absurd h (by simp))]
                rfl
              · rw [if_neg hlen] at h
                by_cases hp : (labelL txt st w).isPrefixOf (c :: rest)
                · rw [if_pos hp] at h
                  have hpP : (labelL txt st w).IsPrefix (c :: rest) :=
                    List.isPrefixOf_iff_prefix.mp hp
                  cases her : (getNode st w).endRef with
                  | rootE =>
                      have hsame : labelL txt st2 w = labelL txt st w := by
                        unfold labelL labelLen
                        rw [hget, her]
                        rfl
                      rw [hsame]
                      rw [if_neg hlen, if_pos hp]
                      exact ih w _ h
                  | valE k =>
                      have hsame : labelL txt st2 w = labelL txt st w := by
                        unfold labelL labelLen
                        rw [hget, her]
                        rfl
                      rw [hsame]
                      rw [if_neg hlen, if_pos hp]
                      exact ih w _ h
                  | leafE =>
                      -- the walk enters a leaf: the remaining input must die out
                      have hch0 : (getNode st w).children = [] := hleafch w her
                      cases hdrop : (c :: rest).drop (labelL txt st w).length with
                      | cons c2 r2 =>
                          rw [hdrop] at h
                          cases n with
                          | zero => exact absurd h (by simp [walkPos])
                          | succ m =>
                              rw [walkPos_cons, hch0] at h
                              simp [mapFind] at h
                      | nil =>
                          have hlseq : (c :: rest).length = (labelL txt st w).length := by
                            have hd := congrArg List.length hdrop
                            simp only [List.length_drop, List.length_nil] at hd
                            omega
                          have hseq : labelL txt st w = c :: rest :=
                            List.IsPrefix.eq_of_length hpP hlseq.symm
                          by_cases hlen2 : (c :: rest).length < (labelL txt st2 w).length
                          · rw [if_pos hlen2]
                            rw [if_pos (List.isPrefixOf_iff_prefix.mpr
                              (hseq ▸ hpre_lab))]
                            rfl
                          · rw [if_neg hlen2]
                            have hll : (labelL txt st w).length =
                                (labelL txt st2 w).length := by
                              have h8 := hpre_lab.length_le
                              omega
                            have heq2 : labelL txt st2 w = c :: rest := by
                              rw [← List.IsPrefix.eq_of_length hpre_lab hll]
                              exact hseq
                            rw [if_pos (List.isPrefixOf_iff_prefix.mpr (by
                              rw [heq2]))]
                            rw [heq2]
                            rw [List.drop_length]
                            cases n with
                            | zero => exact absurd h (by simp [walkPos])
                            | succ m => rw [walkPos_nil]; rfl
                · rw [if_neg hp] at h; exact absurd h (by simp)

/-- The state after the structural core of an edge split (`splitStep`
up to `st5`): push the split node, swap it in under `c`, advance
`next.start`, and attach `next` below the split node. -/
def splitCore (txt : List Nat) (st1 : STState) (a c next : Nat) (aL : Int) : STState :=
  let nextStart := (getNode st1 next).start
  let stA := (pushNode st1 nextStart (ERef.valE (nextStart + aL - 1))).1
  let stB := setNode stA a
    { getNode stA a with children := mapSet (getNode stA a).children c st1.nodes.size }
  let stC := setNode stB next
    { getNode stB next with start := (getNode stB next).start + aL }
  setNode stC st1.nodes.size
    { getNode stC st1.nodes.size with
        children := mapSet (getNode stC st1.nodes.size).children
          (charAt txt (getNode stC next).start) next }

theorem splitCore_size (txt : List Nat) (st1 : STState) (a c next : Nat) (aL : Int) :
    (splitCore txt st1 a c next aL).nodes.size = st1.nodes.size + 1 := by
  unfold splitCore
  rw [size_setNode, size_setNode, size_setNode, size_pushNode]

theorem splitCore_leafEnd (txt : List Nat) (st1 : STState) (a c next : Nat) (aL : Int) :
    (splitCore txt st1 a c next aL).leafEnd = st1.leafEnd := rfl

theorem splitCore_derefEnd (txt : List Nat) (st1 : STState) (a c next : Nat) (aL : Int)
    (er : ERef) : derefEnd (splitCore txt st1 a c next aL) er = derefEnd st1 er := by
  cases er <;> rfl

theorem splitCore_getNode (txt : List Nat) (st1 : STState) (a c next : Nat) (aL : Int)
    (ha : a < st1.nodes.size) (hnextlt : next < st1.nodes.size) (hanext : a ≠ next) :
    getNode (splitCore txt st1 a c next aL) a =
      { getNode st1 a with
          children := mapSet (getNode st1 a).children c st1.nodes.size } ∧
    getNode (splitCore txt st1 a c next aL) next =
      { getNode st1 next with start := (getNode st1 next).start + aL } ∧
    getNode (splitCore txt st1 a c next aL) st1.nodes.size =
      { start := (getNode st1 next).start,
        endRef := ERef.valE ((getNode st1 next).start + aL - 1), suffixLink := 0,
        children := [(charAt txt ((getNode st1 next).start + aL), next)] } ∧
    (∀ w, w ≠ a → w ≠ next → w ≠ st1.nodes.size →
      getNode (splitCore txt st1 a c next aL) w = getNode st1 w) := by
  set nextStart := (getNode st1 next).start with hns
  set stA := (pushNode st1 nextStart (ERef.valE (nextStart + aL - 1))).1 with hA
  set stB := setNode stA a
    { getNode stA a with children := mapSet (getNode stA a).children c st1.nodes.size }
    with hB
  set stC := setNode stB next
    { getNode stB next with start := (getNode stB next).start + aL } with hC
  have hcore : splitCore txt st1 a c next aL = setNode stC st1.nodes.size
      { getNode stC st1.nodes.size with
          children := mapSet (getNode stC st1.nodes.size).children
            (charAt txt (getNode stC next).start) next } := rfl
  have hszA : stA.nodes.size = st1.nodes.size + 1 := by
    rw [hA, size_pushNode]
  have hszB : stB.nodes.size = st1.nodes.size + 1 := by
    rw [hB, size_setNode, hszA]
  have hszC : stC.nodes.size = st1.nodes.size + 1 := by
    rw [hC, size_setNode, hszB]
  have hgA_lt : ∀ j, j < st1.nodes.size → getNode stA j = getNode st1 j := by
    intro j hj
    rw [hA]
    exact getNode_pushNode_of_lt _ _ _ _ (by omega)
  have hgA_new : getNode stA st1.nodes.size =
      { start := nextStart, endRef := ERef.valE (nextStart + aL - 1),
        suffixLink := 0, children := [] } := by
    rw [hA, getNode_pushNode, if_pos rfl]
  have hgB_a : getNode stB a =
      { getNode st1 a with
          children := mapSet (getNode st1 a).children c st1.nodes.size } := by
    rw [hB, getNode_setNode, if_pos ⟨rfl, by omega⟩, hgA_lt a ha]
  have hgB_ne : ∀ j, j ≠ a → getNode stB j = getNode stA j := by
    intro j hj
    rw [hB, getNode_setNode, if_neg (fun hcon => hj hcon.1.symm)]
  have hgC_next : getNode stC next =
      { getNode st1 next with start := nextStart + aL } := by
    rw [hC, getNode_setNode, if_pos ⟨rfl, by omega⟩,
      hgB_ne next (fun hcon => hanext hcon.symm), hgA_lt next hnextlt]
  have hgC_ne : ∀ j, j ≠ next → getNode stC j = getNode stB j := by
    intro j hj
    rw [hC, getNode_setNode, if_neg (fun hcon => hj hcon.1.symm)]
  have hgC_new : getNode stC st1.nodes.size =
      { start := nextStart, endRef := ERef.valE (nextStart + aL - 1),
        suffixLink := 0, children := [] } := by
    rw [hgC_ne _ (by omega), hgB_ne _ (by omega), hgA_new]
  refine ⟨?_, ?_, ?_, ?_⟩
  · rw [hcore, getNode_setNode, if_neg (by omega), hgC_ne a hanext, hgB_a]
  · rw [hcore, getNode_setNode, if_neg (by omega), hgC_next]
  · rw [hcore, getNode_setNode, if_pos ⟨rfl, by omega⟩, hgC_new, hgC_next]
    rfl
  · intro w hwa hwnext hwsz
    rw [hcore, getNode_setNode, if_neg (fun hcon => hwsz hcon.1.symm),
      hgC_ne w hwnext, hgB_ne w hwa, hA]
    rw [getNode_pushNode, if_neg hwsz]

/-- Walks survive an edge split.  `stS` is any state that looks like the
structural core of `splitStep` relative to `st1`: the split node sits at the
old arena size with the first `aL` bytes of `next`'s label, `next` hangs
below it with the rest, and `a`'s child slot under `c` now points at the
split node.  Every walk that succeeded in `st1` succeeds in `stS`, with
`2 * fuel` covering the extra hop through the split node. -/
theorem walkPos_splitGeneric (txt : List Nat) (st1 stS : STState) (a c next : Nat)
    (aL : Int)
    (hnextlt : next < st1.nodes.size)
    (hderef : ∀ er, derefEnd stS er = derefEnd st1 er)
    (hg_a : getNode stS a =
      { getNode st1 a with
          children := mapSet (getNode st1 a).children c st1.nodes.size })
    (hg_next : getNode stS next =
      { getNode st1 next with start := (getNode st1 next).start + aL })
    (hg_split : getNode stS st1.nodes.size =
      { start := (getNode st1 next).start,
        endRef := ERef.valE ((getNode st1 next).start + aL - 1), suffixLink := 0,
        children := [(charAt txt ((getNode st1 next).start + aL), next)] })
    (hg_other : ∀ w, w ≠ a → w ≠ next → w ≠ st1.nodes.size →
      getNode stS w = getNode st1 w)
    (hCB : ChildrenBounded st1)
    (hfc : mapFind (getNode st1 a).children c = some next)
    (hpar : ∀ p c2, mapFind (getNode st1 p).children c2 = some next → p = a ∧ c2 = c)
    (haL1 : 1 ≤ aL) (haLlt : aL < labelLen st1 next)
    (hstart : 0 ≤ (getNode st1 next).start)
    (hbound : (getNode st1 next).start + labelLen st1 next ≤ (txt.length : Int)) :
    ∀ fuel v s, (walkPos txt st1 fuel v s).isSome = true →
      (walkPos txt stS (2 * fuel) v s).isSome = true := by
  have hlab_other : ∀ w, w ≠ next → w ≠ st1.nodes.size →
      labelL txt stS w = labelL txt st1 w := by
    intro w hwn hwsz
    by_cases hwa : w = a
    · subst hwa
      unfold labelL labelLen
      rw [hg_a, hderef]
    · unfold labelL labelLen
      rw [hg_other w hwa hwn hwsz, hderef]
  have hlab_split : labelL txt stS st1.nodes.size =
      slice txt (getNode st1 next).start aL := by
    unfold labelL labelLen
    rw [hg_split, hderef]
    show slice txt (getNode st1 next).start
      ((getNode st1 next).start + aL - 1 - (getNode st1 next).start + 1) = _
    congr 1
    ring
  have hlen_next : labelLen stS next = labelLen st1 next - aL := by
    unfold labelLen
    rw [hg_next, hderef]
    show derefEnd st1 (getNode st1 next).endRef - ((getNode st1 next).start + aL) + 1 = _
    ring
  have hlab_next : labelL txt stS next =
      slice txt ((getNode st1 next).start + aL) (labelLen st1 next - aL) := by
    unfold labelL
    rw [hlen_next, hg_next]
  have hL : (labelL txt st1 next).length = (labelLen st1 next).toNat := by
    unfold labelL
    exact slice_length txt _ _ hstart (by omega) hbound
  have hL1 : (slice txt (getNode st1 next).start aL).length = aL.toNat :=
    slice_length txt _ _ hstart (by omega) (by omega)
  have hL2 : (slice txt ((getNode st1 next).start + aL)
      (labelLen st1 next - aL)).length = (labelLen st1 next - aL).toNat :=
    slice_length txt _ _ (by omega) (by omega) (by omega)
  have happ : slice txt (getNode st1 next).start aL ++
      slice txt ((getNode st1 next).start + aL) (labelLen st1 next - aL) =
      labelL txt st1 next := by
    unfold labelL
    rw [slice_append txt _ _ _ hstart (by omega) (by omega) (by omega)]
    congr 1
    ring
  have hL1pre : (slice txt (getNode st1 next).start aL).IsPrefix
      (labelL txt st1 next) := ⟨_, happ⟩
  have hc' : (slice txt ((getNode st1 next).start + aL)
      (labelLen st1 next - aL)).getD 0 0 =
      charAt txt ((getNode st1 next).start + aL) := by
    have h0 := slice_getElem txt ((getNode st1 next).start + aL)
      (labelLen st1 next - aL) 0 (by omega) (by
        show ((0 : Nat) : Int) < labelLen st1 next - aL
        omega) (by omega)
    rw [h0]
    congr 1
    simp
  have hLdrop : (labelL txt st1 next).drop
      (slice txt (getNode st1 next).start aL).length =
      slice txt ((getNode st1 next).start + aL) (labelLen st1 next - aL) := by
    rw [← happ]
    exact List.drop_left _ _
  intro fuel
  induction fuel with
  | zero =>
      intro v s hsome
      simp [walkPos] at hsome
  | succ n ih =>
      intro v s hsome
      have h2n : 2 * (n + 1) = (2 * n + 1) + 1 := by ring
      cases s with
      | nil =>
          rw [h2n, walkPos_nil]
          rfl
      | cons c0 rest =>
          rw [walkPos_cons] at hsome
          cases hfc0 : mapFind (getNode st1 v).children c0 with
          | none =>
              rw [hfc0] at hsome
              simp at hsome
          | some w =>
              rw [hfc0] at hsome
              dsimp only at hsome
              obtain ⟨hw1, hwlt⟩ := hCB v c0 w hfc0
              by_cases hwn : w = next
              · -- the re-routed edge: `v = a`, `c0 = c`, old target `next`
                obtain ⟨hva, hc0c⟩ := hpar v c0 (by rw [← hwn]; exact hfc0)
                rw [hwn] at hsome
                rw [hc0c] at hsome ⊢
                rw [hva]
                have hfcS_a : mapFind (getNode stS a).children c =
                    some st1.nodes.size := by
                  rw [hg_a]
                  exact mapFind_mapSet_self _ _ _
                have hfcS_split : ∀ c2,
                    mapFind (getNode stS st1.nodes.size).children c2 =
                    if charAt txt ((getNode st1 next).start + aL) = c2 then some next
                    else none := by
                  intro c2
                  rw [hg_split]
                  rfl
                rw [h2n, walkPos_cons, hfcS_a]
                dsimp only
                rw [hlab_split]
                by_cases hlt : (c :: rest).length < (labelL txt st1 next).length
                · rw [if_pos hlt] at hsome
                  by_cases hpre : (c :: rest).isPrefixOf (labelL txt st1 next)
                  · have hpre' := List.isPrefixOf_iff_prefix.mp hpre
                    by_cases hsl : (c :: rest).length <
                        (slice txt (getNode st1 next).start aL).length
                    · rw [if_pos hsl, if_pos (List.isPrefixOf_iff_prefix.mpr
                        (List.prefix_of_prefix_length_le hpre' hL1pre (by omega)))]
                      rfl
                    · rw [if_neg hsl, if_pos (List.isPrefixOf_iff_prefix.mpr
                        (List.prefix_of_prefix_length_le hL1pre hpre' (by omega)))]
                      have hdropPre : ((c :: rest).drop
                          (slice txt (getNode st1 next).start aL).length).IsPrefix
                          (slice txt ((getNode st1 next).start + aL)
                            (labelLen st1 next - aL)) := by
                        have h2 := List.prefix_iff_eq_take.mp hpre'
                        rw [h2, List.drop_take, hLdrop]
                        exact List.take_prefix _ _
                      cases hdrop : (c :: rest).drop
                          (slice txt (getNode st1 next).start aL).length with
                      | nil =>
                          rw [walkPos_nil]
                          rfl
                      | cons c1 r1 =>
                          rw [hdrop] at hdropPre
                          have hc1 : c1 =
                              charAt txt ((getNode st1 next).start + aL) := by
                            have h3 := isPrefix_getD_eq hdropPre 0 (by simp)
                            rw [hc'] at h3
                            exact h3
                          rw [walkPos_cons, hfcS_split, if_pos hc1.symm]
                          dsimp only
                          rw [hlab_next]
                          have hdl : (c :: rest).length -
                              (slice txt (getNode st1 next).start aL).length =
                              (c1 :: r1).length := by
                            rw [← hdrop]
                            exact (List.length_drop _ _).symm
                          rw [if_pos (by rw [hL2]; rw [hL] at hlt; rw [hL1] at hdl hsl; omega),
                            if_pos (List.isPrefixOf_iff_prefix.mpr hdropPre)]
                          rfl
                  · rw [if_neg hpre] at hsome
                    simp at hsome
                · rw [if_neg hlt] at hsome
                  by_cases hpre : (labelL txt st1 next).isPrefixOf (c :: rest)
                  · rw [if_pos hpre] at hsome
                    have hpre' := List.isPrefixOf_iff_prefix.mp hpre
                    obtain ⟨t, ht⟩ := hpre'
                    have hnotin : ¬ (c :: rest).length <
                        (slice txt (getNode st1 next).start aL).length := by
                      rw [hL1]
                      rw [hL] at hlt
                      omega
                    have hL1s : (slice txt (getNode st1 next).start aL).IsPrefix
                        (c :: rest) := hL1pre.trans ⟨t, ht⟩
                    rw [if_neg hnotin, if_pos (List.isPrefixOf_iff_prefix.mpr hL1s)]
                    have hdropeq : (c :: rest).drop
                        (slice txt (getNode st1 next).start aL).length =
                        slice txt ((getNode st1 next).start + aL)
                          (labelLen st1 next - aL) ++ t := by
                      rw [← ht, ← happ, List.append_assoc]
                      exact List.drop_left _ _
                    rw [hdropeq]
                    have hL2ne : slice txt ((getNode st1 next).start + aL)
                        (labelLen st1 next - aL) ≠ [] := by
                      intro hcon
                      rw [hcon] at hL2
                      simp at hL2
                      omega
                    cases hL2c : slice txt ((getNode st1 next).start + aL)
                        (labelLen st1 next - aL) with
                    | nil => exact absurd hL2c hL2ne
                    | cons c1 r1 =>
                        have hc1 : c1 =
                            charAt txt ((getNode st1 next).start + aL) := by
                          rw [← hc', hL2c]
                          rfl
                        show (walkPos txt stS (2 * n + 1) st1.nodes.size
                          (c1 :: (r1 ++ t))).isSome = true
                        rw [walkPos_cons, hfcS_split, if_pos hc1.symm]
                        dsimp only
                        rw [hlab_next, hL2c]
                        have hdrop2 : (c1 :: (r1 ++ t)).drop (c1 :: r1).length = t := by
                          show ((c1 :: r1) ++ t).drop (c1 :: r1).length = t
                          exact List.drop_left _ _
                        rw [if_neg (by simp), if_pos (List.isPrefixOf_iff_prefix.mpr
                          ⟨t, by simp⟩), hdrop2]
                        have hdold : (c :: rest).drop (labelL txt st1 next).length
                            = t := by
                          rw [← ht]
                          exact List.drop_left _ _
                        rw [hdold] at hsome
                        exact ih next t hsome
                  · rw [if_neg hpre] at hsome
                    simp at hsome
              · -- an edge untouched by the split
                have hwsz : w ≠ st1.nodes.size := by omega
                have hfcS : mapFind (getNode stS v).children c0 = some w := by
                  by_cases hva : v = a
                  · rw [hva] at hfc0 ⊢
                    rw [hg_a]
                    show mapFind (mapSet (getNode st1 a).children c
                      st1.nodes.size) c0 = _
                    have hc0c : c0 ≠ c := by
                      intro hcon
                      rw [hcon] at hfc0
                      rw [hfc0] at hfc
                      exact hwn (Option.some.inj hfc)
                    rw [mapFind_mapSet_ne _ _ _ _ hc0c]
                    exact hfc0
                  · by_cases hvn : v = next
                    · rw [hvn] at hfc0 ⊢
                      rw [hg_next]
                      exact hfc0
                    · by_cases hvsz : v = st1.nodes.size
                      · exfalso
                        rw [hvsz, getNode_oob st1 _ (by omega)] at hfc0
                        simp [mapFind] at hfc0
                      · rw [hg_other v hva hvn hvsz]
                        exact hfc0
                rw [h2n, walkPos_cons, hfcS]
                dsimp only
                rw [hlab_other w hwn hwsz]
                by_cases hlt : (c0 :: rest).length < (labelL txt st1 w).length
                · rw [if_pos hlt] at hsome ⊢
                  by_cases hpre : (c0 :: rest).isPrefixOf (labelL txt st1 w)
                  · rw [if_pos hpre]
                    rfl
                  · rw [if_neg hpre] at hsome
                    simp at hsome
                · rw [if_neg hlt] at hsome ⊢
                  by_cases hpre : (labelL txt st1 w).isPrefixOf (c0 :: rest)
                  · rw [if_pos hpre] at hsome ⊢
                    have hS := ih w _ hsome
                    obtain ⟨r, hr⟩ := Option.isSome_iff_exists.mp hS
                    rw [walkPos_mono_le txt stS (by omega) hr]
                    rfl
                  · rw [if_neg hpre] at hsome
                    simp at hsome

/-- Walks only read the arena and the global leaf end. -/
theorem walkPos_fields (txt : List Nat) (st st2 : STState)
    (hn : st2.nodes = st.nodes) (hl : st2.leafEnd = st.leafEnd) :
    ∀ fuel v s, walkPos txt st2 fuel v s = walkPos txt st fuel v s := by
  have hg : ∀ j, getNode st2 j = getNode st j := by
    intro j
    unfold getNode
    rw [hn]
  have hd : ∀ er, derefEnd st2 er = derefEnd st er := by
    intro er
    cases er with
    | rootE => rfl
    | leafE => exact hl
    | valE x => rfl
  exact walkPos_congr txt st st2 (fun j => by rw [hg]) (fun j => by
    unfold labelL labelLen
    rw [hg, hd])

/-- When every reachable edge label is nonempty, `s.length + 1` fuel is
enough for any walk that succeeds at all. -/
theorem walkPos_fuel_min (txt : List Nat) (st : STState)
    (hlab : ∀ v w c, mapFind (getNode st v).children c = some w →
      1 ≤ (labelL txt st w).length) :
    ∀ fuel v s r, walkPos txt st fuel v s = some r →
      walkPos txt st (s.length + 1) v s = some r := by
  intro fuel
  induction fuel with
  | zero =>
      intro v s r h
      simp [walkPos] at h
  | succ n ih =>
      intro v s r h
      cases s with
      | nil =>
          rw [walkPos_nil] at h
          rw [walkPos_nil]
          exact h
      | cons c0 rest =>
          rw [walkPos_cons] at h
          rw [walkPos_cons]
          cases hfc0 : mapFind (getNode st v).children c0 with
          | none =>
              rw [hfc0] at h
              simp at h
          | some w =>
              rw [hfc0] at h
              dsimp only
              dsimp only at h
              by_cases hlt : (c0 :: rest).length < (labelL txt st w).length
              · rw [if_pos hlt] at h ⊢
                exact h
              · rw [if_neg hlt] at h ⊢
                by_cases hpre : (labelL txt st w).isPrefixOf (c0 :: rest)
                · rw [if_pos hpre] at h ⊢
                  have h2 := ih w _ r h
                  have hlen1 := hlab v w c0 hfc0
                  refine walkPos_mono_le txt st ?_ h2
                  rw [List.length_drop]
                  simp only [List.length_cons] at hlt ⊢
                  omega
                · rw [if_neg hpre] at h
                  simp at h

end Ukkonen
